import Mathlib

/-!
Notes service: credential store, token manager and note store.

A shallow embedding of `internal/notes/notes.go` and `internal/auth/auth.go`, and
of the two branches of `handleNotes` in `cmd/server/main.go` that call the note
store.

Conventions of the embedding

* In package `notes` a Go `string` is a Lean `String`: the package stores,
  compares and concatenates strings and never looks at their bytes. In package
  `auth`, whose strings are hashed, encoded and sent through `encoding/json`, a
  Go `string` is the sequence of its bytes, `auth.GoString`, which need not be
  valid UTF-8.
* A Go `int` has 32 or 64 bits, by the platform the program is built for. The
  width is the argument `bits` of every operation that counts in an `int`, and
  arithmetic on it wraps around (`wrapInt`).
* A `time.Time` is an instant, an `Int` count of nanoseconds; `time.Now()` is an
  explicit argument `now` of every operation that reads the clock, and a
  `time.Duration` is an `Int` as well.
* A Go slice is an `Option (List α)`: `none` is the `nil` slice, `some xs` a
  non-nil slice with the elements `xs`.
* A Go `map[string]V` is an association list of keys and values; the operations
  `mapGet`, `mapSet` and `mapDelete` are index, assignment and `delete`. The
  order of the list stands for the (unspecified) iteration order of the Go map,
  so results about `List` speak of membership only. A list with a repeated key
  stands for no Go map; the theorems hold for such lists all the same.
* The functions of Go's standard library (SHA-256, HMAC, base64, JSON) are the
  fields of `auth.Lib`, and the bytes drawn from `crypto/rand` are an argument.
* A method with a pointer receiver takes the store and returns the new store
  next to its result; the mutex is not modelled, every operation is one atomic
  step.
* `*Note` and `*User` are modelled by value: every pointer kept in a store map
  is allocated by the one `Create`/`Register` call that inserts it, so no two
  keys alias.
-/

/-- An instant of `time.Time`, in nanoseconds. -/
abbrev Time := Int

/-- A Go slice: `none` is `nil`. -/
abbrev Slice (α : Type) := Option (List α)

/-- The elements of a slice; a `nil` slice has none. -/
def Slice.elems {α : Type} (s : Slice α) : List α := s.getD []

/-- Go's `append(s, x)`: appending to `nil` allocates. -/
def Slice.append {α : Type} : Slice α → α → Slice α
  | none, x => some [x]
  | some xs, x => some (xs ++ [x])

/-- The map index expression `m[k]` with the comma-ok form. -/
def mapGet {K V : Type} [DecidableEq K] : List (K × V) → K → Option V
  | [], _ => none
  | (k', v) :: rest, k => if k' = k then some v else mapGet rest k

/-- The map assignment `m[k] = v`. -/
def mapSet {K V : Type} [DecidableEq K] : List (K × V) → K → V → List (K × V)
  | [], k, v => [(k, v)]
  | (k', v') :: rest, k, v =>
    if k' = k then (k, v) :: rest else (k', v') :: mapSet rest k v

/-- The builtin `delete(m, k)`. -/
def mapDelete {K V : Type} [DecidableEq K] (m : List (K × V)) (k : K) : List (K × V) :=
  m.filter (fun e => decide (e.1 ≠ k))

/-- Two's-complement wrap-around of a Go `int` of `bits` bits. The width of `int`
is fixed by the platform the program is built for, 32 or 64; it is the argument
`bits` of every operation that counts in an `int`. -/
def wrapInt (bits : Nat) (x : Int) : Int := (x + 2 ^ (bits - 1)) % 2 ^ bits - 2 ^ (bits - 1)

namespace notes

/-- The package's sentinel errors. -/
inductive Error where
  | ErrNotFound
  | ErrForbidden
deriving DecidableEq, Repr

abbrev Priority := String

def PriorityLow : Priority := "low"
def PriorityMedium : Priority := "medium"
def PriorityHigh : Priority := "high"

structure Note where
  ID : String
  UserID : String
  Title : String
  Body : String
  Done : Bool
  Priority : Priority
  Tags : Slice String
  CreatedAt : Time
  UpdatedAt : Time
deriving DecidableEq, Repr

structure Store where
  notes : List (String × Note)
  counter : Int
deriving DecidableEq, Repr

def NewStore : Store := { notes := [], counter := 0 }

/-- `s.counter++` followed by `fmt.Sprintf("note_%d", s.counter)`. -/
def Store.newID (s : Store) (bits : Nat) : Store × String :=
  let c := wrapInt bits (s.counter + 1)
  ({ s with counter := c }, "note_" ++ toString c)

structure CreateInput where
  Title : String
  Body : String
  Priority : Priority
  Tags : Slice String
deriving DecidableEq, Repr

/-- The input of `Update`: a `nil` pointer (or `nil` slice) is `none`. -/
structure UpdateInput where
  Title : Option String
  Body : Option String
  Done : Option Bool
  Priority : Option Priority
  Tags : Slice String
deriving DecidableEq, Repr

def Store.Create (s : Store) (bits : Nat) (now : Time) (userID : String)
    (input : CreateInput) : Store × Note :=
  let priority := if input.Priority = "" then PriorityMedium else input.Priority
  let tags : Slice String := if input.Tags = none then some [] else input.Tags
  let (s1, id) := s.newID bits
  let note : Note :=
    { ID := id
      UserID := userID
      Title := input.Title
      Body := input.Body
      Done := false
      Priority := priority
      Tags := tags
      CreatedAt := now
      UpdatedAt := now }
  ({ s1 with notes := mapSet s1.notes note.ID note }, note)

def Store.Get (s : Store) (userID noteID : String) : Except Error Note :=
  match mapGet s.notes noteID with
  | none => .error .ErrNotFound
  | some note =>
    if note.UserID ≠ userID then .error .ErrForbidden
    else .ok note

/-- The loop of `List`: `result` starts as the `nil` slice and grows by `append`. -/
def Store.List (s : Store) (userID : String) : Slice Note :=
  s.notes.foldl
    (fun result e => if e.2.UserID = userID then Slice.append result e.2 else result)
    none

/-- The statement `if input.Title != nil { note.Title = *input.Title }`. -/
def Note.assignTitle (note : Note) (p : Option String) : Note :=
  match p with
  | some t => { note with Title := t }
  | none => note

/-- The statement `if input.Body != nil { note.Body = *input.Body }`. -/
def Note.assignBody (note : Note) (p : Option String) : Note :=
  match p with
  | some b => { note with Body := b }
  | none => note

/-- The statement `if input.Done != nil { note.Done = *input.Done }`. -/
def Note.assignDone (note : Note) (p : Option Bool) : Note :=
  match p with
  | some d => { note with Done := d }
  | none => note

/-- The statement `if input.Priority != nil { note.Priority = *input.Priority }`. -/
def Note.assignPriority (note : Note) (p : Option notes.Priority) : Note :=
  match p with
  | some q => { note with Priority := q }
  | none => note

/-- The statement `if input.Tags != nil { note.Tags = input.Tags }`. -/
def Note.assignTags (note : Note) (p : Slice String) : Note :=
  match p with
  | some ts => { note with Tags := some ts }
  | none => note

def Store.Update (s : Store) (now : Time) (userID noteID : String) (input : UpdateInput) :
    Store × Except Error Note :=
  match mapGet s.notes noteID with
  | none => (s, .error .ErrNotFound)
  | some note =>
    if note.UserID ≠ userID then (s, .error .ErrForbidden)
    else
      let note := note.assignTitle input.Title
      let note := note.assignBody input.Body
      let note := note.assignDone input.Done
      let note := note.assignPriority input.Priority
      let note := note.assignTags input.Tags
      let note := { note with UpdatedAt := now }
      ({ s with notes := mapSet s.notes noteID note }, .ok note)

def Store.Delete (s : Store) (userID noteID : String) : Store × Except Error Unit :=
  match mapGet s.notes noteID with
  | none => (s, .error .ErrNotFound)
  | some note =>
    if note.UserID ≠ userID then (s, .error .ErrForbidden)
    else ({ s with notes := mapDelete s.notes noteID }, .ok ())

/-- One call that can change a store. -/
inductive Op where
  | create (now : Time) (userID : String) (input : CreateInput)
  | update (now : Time) (userID noteID : String) (input : UpdateInput)
  | delete (userID noteID : String)
deriving DecidableEq, Repr

/-- The store after one call. -/
def Store.step (s : Store) (bits : Nat) : Op → Store
  | .create now u i => (s.Create bits now u i).1
  | .update now u id i => (s.Update now u id i).1
  | .delete u id => (s.Delete u id).1

/-- The store after a sequence of calls, made one after the other (the order in
which the mutex admitted them). -/
def runOps (bits : Nat) (s : Store) : List Op → Store
  | [] => s
  | op :: rest => runOps bits (s.step bits op) rest

/-- The number of `Create` calls in a sequence of calls. -/
def creates : List Op → Nat
  | [] => 0
  | .create _ _ _ :: rest => creates rest + 1
  | _ :: rest => creates rest

/-- The owner and the identifier of the note each `Create` call of a sequence
returns, in order. -/
def issuedIDs (bits : Nat) (s : Store) : List Op → List (String × String)
  | [] => []
  | .create now u i :: rest =>
    (u, (s.Create bits now u i).2.ID) :: issuedIDs bits (s.Create bits now u i).1 rest
  | .update now u id i :: rest => issuedIDs bits (s.Update now u id i).1 rest
  | .delete u id :: rest => issuedIDs bits (s.Delete u id).1 rest

/-- The identifier that the `j`-th `Create` on a new store returns. -/
def nthID (bits : Nat) (j : Nat) : String := "note_" ++ toString (wrapInt bits j)

/-- The state of a store on which `Create` was called `N` times since `NewStore`:
the counter is `N` (wrapped), and every key is the identifier of the note it
holds, one of the first `N` that were given out. -/
def Store.Issued (s : Store) (bits : Nat) (N : Nat) : Prop :=
  s.counter = wrapInt bits N
    ∧ ∀ (k : String) (n : Note), mapGet s.notes k = some n →
        n.ID = k ∧ ∃ j : Nat, 1 ≤ j ∧ j ≤ N ∧ k = nthID bits j

/-- The number a text of decimal digits stands for, read from the left. -/
def digitsValue (l : List Char) : Nat := l.foldl (fun a c => 10 * a + (c.toNat - 48)) 0

/-! ### Sample inputs -/

/-- The input of the spec's scenario: the title "Buy milk", priority high. -/
def milk : CreateInput := { Title := "Buy milk", Body := "", Priority := PriorityHigh, Tags := none }

/-- An input without a title. -/
def untitled : CreateInput := { Title := "", Body := "text", Priority := "", Tags := none }

/-- A sample sequence of calls: `u1` tries to delete `note_1` before any note
exists, creates two notes and updates the first; `u2` creates one note and
deletes it. -/
def sampleOps : List Op :=
  [Op.delete "u1" "note_1", Op.create 1 "u1" milk, Op.create 2 "u2" milk,
   Op.update 3 "u1" "note_1"
     { Title := some "Buy bread", Body := none, Done := some true, Priority := none,
       Tags := none },
   Op.create 4 "u1" milk, Op.delete "u2" "note_2"]

/-- A sequence of `n` rounds in which `u` creates a note and deletes it at once. The
store has given out `start` identifiers before the first round, so the round
number `i` creates and deletes the identifier number `start + i`. -/
def churn (bits : Nat) (now : Time) (u : String) (input : CreateInput) : Nat → Nat → List Op
  | _, 0 => []
  | start, n + 1 =>
    Op.create now u input :: Op.delete u (nthID bits (start + 1))
      :: churn bits now u input (start + 1) n

/-- The note that `Create` makes of the input `milk` for `u` at the instant `now`
when it gives out the identifier `note_1`. -/
def milkNote (now : Time) (u : String) : Note :=
  { ID := "note_1", UserID := u, Title := "Buy milk", Body := "", Done := false,
    Priority := "high", Tags := some [], CreatedAt := now, UpdatedAt := now }

end notes

namespace auth

/-- The package's sentinel errors; `other` is an error of the standard library
(`crypto/rand`, `encoding/json`) that the package returns as it got it. -/
inductive Error where
  | ErrInvalidToken
  | ErrExpiredToken
  | ErrUserNotFound
  | ErrWrongPassword
  | ErrUserExists
  | other (msg : String)
deriving DecidableEq, Repr

/-- One element of a `[]byte`. -/
abbrev Byte := Fin 256

/-- A Go `string` of this package: a sequence of bytes, which need not be valid
UTF-8. The conversions `[]byte(s)` and `string(b)` keep the bytes, and `+` is
`++`. -/
abbrev GoString := List Byte

/-- A string literal of the source or of a test: the bytes of its UTF-8 encoding. -/
def str (s : String) : GoString := s.toUTF8.data.toList.map (fun b => b.val)

structure User where
  ID : GoString
  Username : GoString
  PasswordHash : GoString
  Salt : GoString
  CreatedAt : Time
deriving DecidableEq, Repr

structure UserStore where
  users : List (GoString × User)
deriving DecidableEq, Repr

def NewUserStore : UserStore := { users := [] }

structure Claims where
  UserID : GoString
  Username : GoString
  Expires : Time
deriving DecidableEq, Repr

/-- The functions of Go's standard library that the package calls. They are
parameters of the embedding: every theorem holds for whatever functions stand
here, and what a theorem needs of them is a hypothesis of that theorem.

* `sha256 m`: `h := sha256.New(); h.Write(m); h.Sum(nil)`, a digest of 32 bytes;
* `hmacSHA256 key m`: `mac := hmac.New(sha256.New, key); mac.Write(m); mac.Sum(nil)`;
* `stdEncode`: `base64.StdEncoding.EncodeToString`;
* `rawURLEncode`, `rawURLDecode`: `base64.RawURLEncoding.EncodeToString` and
  `DecodeString` (`none` when it returns an error);
* `jsonMarshal`, `jsonUnmarshal`: `json.Marshal` of a `Claims` and
  `json.Unmarshal` into a zero `Claims` (`none` when it returns an error). -/
structure Lib where
  sha256 : List Byte → Mathlib.Vector Byte 32
  hmacSHA256 : List Byte → List Byte → Mathlib.Vector Byte 32
  stdEncode : List Byte → GoString
  rawURLEncode : List Byte → GoString
  rawURLDecode : GoString → Option (List Byte)
  jsonMarshal : Claims → Except String (List Byte)
  jsonUnmarshal : List Byte → Option Claims

/-- What `crypto/rand` hands to one `Register` call: the outcome of `rand.Read`
on the 16-byte salt buffer (the bytes, or its error), and the content of the
8-byte identifier buffer after its `rand.Read`, whose error is ignored. -/
structure Entropy where
  salt : Except String (List Byte)
  id : List Byte

def generateSalt (lib : Lib) (rnd : Except String (List Byte)) : Except Error GoString :=
  match rnd with
  | .error e => .error (.other e)
  | .ok b => .ok (lib.stdEncode b)

def hashPassword (lib : Lib) (password salt : GoString) : GoString :=
  lib.stdEncode (lib.sha256 (salt ++ password)).toList

/-- One lower-case hexadecimal digit. -/
def hexDigit (n : Nat) : Byte :=
  if n < 10 then Fin.ofNat (48 + n) else Fin.ofNat (87 + n)

/-- The verb `%x` of `fmt.Sprintf` on a `[]byte`: two digits a byte. -/
def hex (b : List Byte) : GoString :=
  b.foldr (fun x acc => hexDigit (x.val / 16) :: hexDigit (x.val % 16) :: acc) []

def generateID (b : List Byte) : GoString := hex b

def UserStore.Register (lib : Lib) (s : UserStore) (rnd : Entropy) (now : Time)
    (username password : GoString) : UserStore × Except Error User :=
  match mapGet s.users username with
  | some _ => (s, .error .ErrUserExists)
  | none =>
    match generateSalt lib rnd.salt with
    | .error e => (s, .error e)
    | .ok salt =>
      let user : User :=
        { ID := generateID rnd.id
          Username := username
          PasswordHash := hashPassword lib password salt
          Salt := salt
          CreatedAt := now }
      ({ s with users := mapSet s.users username user }, .ok user)

def UserStore.Login (lib : Lib) (s : UserStore) (username password : GoString) :
    Except Error User :=
  match mapGet s.users username with
  | none => .error .ErrUserNotFound
  | some user =>
    if hashPassword lib password user.Salt ≠ user.PasswordHash then .error .ErrWrongPassword
    else .ok user

structure TokenManager where
  secret : List Byte

def NewTokenManager (secret : GoString) : TokenManager := { secret := secret }

def TokenManager.sign (lib : Lib) (tm : TokenManager) (data : GoString) : GoString :=
  lib.rawURLEncode (lib.hmacSHA256 tm.secret data).toList

/-- The byte `.`. -/
def dot : Byte := 46

def TokenManager.CreateToken (lib : Lib) (tm : TokenManager) (now : Time) (user : User)
    (ttl : Int) : Except Error GoString :=
  let claims : Claims :=
    { UserID := user.ID, Username := user.Username, Expires := now + ttl }
  match lib.jsonMarshal claims with
  | .error e => .error (.other e)
  | .ok payload =>
    let encoded := lib.rawURLEncode payload
    let sig := tm.sign lib encoded
    .ok (encoded ++ [dot] ++ sig)

/-- Where `strings.SplitN(s, ".", 2)` cuts: the text before the first `.` and the
text after it, or `none` when there is no `.`. -/
def cutDot : List Byte → Option (List Byte × List Byte)
  | [] => none
  | c :: cs =>
    if c = dot then some ([], cs)
    else match cutDot cs with
      | none => none
      | some (a, b) => some (c :: a, b)

/-- The call `strings.SplitN(s, ".", 2)`. -/
def splitN2 (s : GoString) : List GoString :=
  match cutDot s with
  | none => [s]
  | some (a, b) => [a, b]

def TokenManager.ValidateToken (lib : Lib) (tm : TokenManager) (now : Time)
    (token : GoString) : Except Error Claims :=
  match splitN2 token with
  | [p0, p1] =>
    if tm.sign lib p0 ≠ p1 then .error .ErrInvalidToken
    else
      match lib.rawURLDecode p0 with
      | none => .error .ErrInvalidToken
      | some payload =>
        match lib.jsonUnmarshal payload with
        | none => .error .ErrInvalidToken
        | some claims =>
          if now > claims.Expires then .error .ErrExpiredToken
          else .ok claims
  | _ => .error .ErrInvalidToken

/-- Further `Register` calls made one after the other; each entry is the entropy,
the clock, the username and the password of one call. -/
def UserStore.registerAll (lib : Lib) (s : UserStore) :
    List (Entropy × Time × GoString × GoString) → UserStore
  | [] => s
  | (rnd, now, u, p) :: rest =>
    UserStore.registerAll lib (s.Register lib rnd now u p).1 rest

/-! ### What `encoding/json` does to a string that is not valid UTF-8

`json.Marshal` writes a string byte by byte through `utf8.DecodeRuneInString`;
where that function answers `(RuneError, 1)` it writes the escape of U+FFFD in
the place of the one byte, and `json.Unmarshal` reads the escape as the three
bytes `EF BF BD`. Every other byte comes back as it went in. -/

/-- The tables `first` and `acceptRanges` of `unicode/utf8`: for the first byte of
a sequence, the length of the sequence and the range in which its second byte
must lie; `none` for a byte that begins no sequence. -/
def utf8Lead (b : Byte) : Option (Nat × Nat × Nat) :=
  if b.val < 0x80 then some (1, 0, 0)
  else if b.val < 0xC2 then none
  else if b.val < 0xE0 then some (2, 0x80, 0xBF)
  else if b.val = 0xE0 then some (3, 0xA0, 0xBF)
  else if b.val = 0xED then some (3, 0x80, 0x9F)
  else if b.val < 0xF0 then some (3, 0x80, 0xBF)
  else if b.val = 0xF0 then some (4, 0x90, 0xBF)
  else if b.val < 0xF4 then some (4, 0x80, 0xBF)
  else if b.val = 0xF4 then some (4, 0x80, 0x8F)
  else none

/-- The number of bytes of the rune that `utf8.DecodeRuneInString` reads at the
head of a string; 0 where it answers `(RuneError, 1)`: the first byte begins no
sequence, the string ends too early, or a further byte is out of its range. -/
def runeWidth : List Byte → Nat
  | [] => 0
  | b :: rest =>
    match utf8Lead b with
    | none => 0
    | some (sz, lo, hi) =>
      if sz = 1 then 1
      else if rest.length + 1 < sz then 0
      else if (rest.take 1).all (fun c => decide (lo ≤ c.val ∧ c.val ≤ hi))
          ∧ ((rest.take (sz - 1)).drop 1).all
              (fun c => decide (0x80 ≤ c.val ∧ c.val ≤ 0xBF))
        then sz
      else 0

/-- The loop of `coerceUTF8`; `k` is the number of bytes still to copy of the rune
the loop is in. -/
def coerceAux : Nat → List Byte → List Byte
  | _, [] => []
  | k + 1, b :: rest => b :: coerceAux k rest
  | 0, b :: rest =>
    if runeWidth (b :: rest) = 0 then 0xEF :: 0xBF :: 0xBD :: coerceAux 0 rest
    else b :: coerceAux (runeWidth (b :: rest) - 1) rest

/-- A string as `json.Unmarshal` reads it back from what `json.Marshal` wrote: every
byte that is not part of a well-formed UTF-8 sequence has become U+FFFD. -/
def coerceUTF8 (s : GoString) : GoString := coerceAux 0 s

/-- The loop of `validUTF8`. -/
def validAux : Nat → List Byte → Bool
  | _, [] => true
  | k + 1, _ :: rest => validAux k rest
  | 0, b :: rest =>
    if runeWidth (b :: rest) = 0 then false
    else validAux (runeWidth (b :: rest) - 1) rest

/-- The function `utf8.ValidString`. -/
def validUTF8 (s : GoString) : Bool := validAux 0 s

/-! ### A small executable library, to run the package on concrete inputs -/

/-- The sum of the bytes, modulo 256. -/
def toySum (m : List Byte) : Byte := m.foldl (fun a b => a + b) 0

/-- The value of one hexadecimal digit. -/
def unhexDigit (c : Byte) : Option Nat :=
  if 48 ≤ c.val ∧ c.val ≤ 57 then some (c.val - 48)
  else if 97 ≤ c.val ∧ c.val ≤ 102 then some (c.val - 87)
  else none

/-- The bytes a hexadecimal text stands for. -/
def unhex : List Byte → Option (List Byte)
  | [] => some []
  | [_] => none
  | a :: b :: rest =>
    match unhexDigit a, unhexDigit b, unhex rest with
    | some x, some y, some r => some (Fin.ofNat (16 * x + y) :: r)
    | _, _, _ => none

/-- The byte `toyLib` writes between two fields; it is part of no valid UTF-8
text. -/
def fieldEnd : Byte := 0xFF

/-- The text `toyLib` writes a claims value as: the two strings, coerced to valid
UTF-8 as `json.Marshal` does, and the instant in decimal digits. -/
def toyText (c : Claims) : List Byte :=
  coerceUTF8 c.UserID ++ [fieldEnd] ++ coerceUTF8 c.Username ++ [fieldEnd]
    ++ str (toString c.Expires)

/-- The text before the first `fieldEnd` and the text after it. -/
def cutField : List Byte → Option (List Byte × List Byte)
  | [] => none
  | c :: cs =>
    if c = fieldEnd then some ([], cs)
    else match cutField cs with
      | none => none
      | some (a, b) => some (c :: a, b)

/-- The number a nonempty text of decimal digits stands for. -/
def readNat (ds : List Byte) : Option Nat :=
  if ds ≠ [] ∧ ds.all (fun c => decide (48 ≤ c.val ∧ c.val ≤ 57)) then
    some (ds.foldl (fun a c => 10 * a + (c.val - 48)) 0)
  else none

/-- The integer a decimal text with an optional `-` stands for. -/
def readInt : List Byte → Option Int
  | [] => none
  | c :: ds =>
    if c.val = 45 then (readNat ds).map (fun n => -(n : Int))
    else (readNat (c :: ds)).map (fun n => (n : Int))

/-- The claims value a text of `toyText` stands for. -/
def toyRead (bs : List Byte) : Option Claims :=
  match cutField bs with
  | none => none
  | some (uid, rest) =>
    match cutField rest with
    | none => none
    | some (usr, exp) =>
      match readInt exp with
      | none => none
      | some e => some { UserID := uid, Username := usr, Expires := e }

/-- A small executable stand-in for the standard library: a digest is the byte sum
repeated 32 times, both base64 codecs are hexadecimal, and a claims value is
written as the text `toyText` and read back from it. -/
def toyLib : Lib where
  sha256 m := Mathlib.Vector.replicate 32 (toySum m)
  hmacSHA256 key m := Mathlib.Vector.replicate 32 (toySum (key ++ m))
  stdEncode := hex
  rawURLEncode := hex
  rawURLDecode := unhex
  jsonMarshal c := .ok (toyText c)
  jsonUnmarshal := toyRead

/-- A sample draw of `crypto/rand` for one registration: 16 salt bytes, 8
identifier bytes. -/
def draw1 : Entropy :=
  { salt := .ok [0x3a, 0x91, 0x5c, 0x07, 0xe2, 0x48, 0xbd, 0x16,
                 0x7f, 0x20, 0xc9, 0x64, 0x0b, 0xd3, 0x85, 0xf1]
    id := [0x0a, 0xff, 0x31, 0x7c, 0x02, 0x9e, 0x55, 0xd0] }

/-- A second sample draw. -/
def draw2 : Entropy :=
  { salt := .ok [0x11, 0x22, 0x33, 0x44, 0x55, 0x66, 0x77, 0x88,
                 0x99, 0xaa, 0xbb, 0xcc, 0xdd, 0xee, 0xff, 0x00]
    id := [0x01, 0x02, 0x03, 0x04, 0x05, 0x06, 0x07, 0x08] }

/-- The record `toyLib` registers for "alice" with the password "password123", the
draw `draw1` and the clock at 7. -/
def alice : User :=
  { ID := str "0aff317c029e55d0"
    Username := str "alice"
    PasswordHash := str "6868686868686868686868686868686868686868686868686868686868686868"
    Salt := str "3a915c07e248bd167f20c9640bd385f1"
    CreatedAt := 7 }

/-- A sample user. -/
def bob : User :=
  { ID := str "01", Username := str "bob", PasswordHash := [], Salt := [], CreatedAt := 0 }

/-- The claims of a token issued to `bob` at instant 100 for 50 nanoseconds. -/
def bobClaims : Claims := { UserID := str "01", Username := str "bob", Expires := 150 }

/-- The token `toyLib` issues for `bobClaims` under the secret `test-secret`. -/
def bobToken : GoString :=
  str ("3031ff626f62ff313530."
    ++ "6d6d6d6d6d6d6d6d6d6d6d6d6d6d6d6d6d6d6d6d6d6d6d6d6d6d6d6d6d6d6d6d")

/-- A user whose name ends in the byte `FF`, which is part of no UTF-8 text. -/
def bobFF : User :=
  { ID := str "01", Username := str "bob" ++ [0xFF], PasswordHash := [], Salt := [],
    CreatedAt := 0 }

/-- The token `toyLib` issues for `bobFF` at instant 100 for 50 nanoseconds under
the secret `test-secret`. -/
def bobFFToken : GoString :=
  str ("3031ff626f62efbfbdff313530."
    ++ "c6c6c6c6c6c6c6c6c6c6c6c6c6c6c6c6c6c6c6c6c6c6c6c6c6c6c6c6c6c6c6c6")

end auth

namespace server

/-- The status codes `http.StatusBadRequest` and `http.StatusCreated`. -/
def StatusBadRequest : Nat := 400
def StatusCreated : Nat := 201

/-- The branch `http.MethodGet` of `handleNotes` in `cmd/server/main.go`: the list
of the caller's notes as it is handed to `writeJSON`, after the `nil` check. -/
def handleNotesGet (store : notes.Store) (userID : String) : Slice notes.Note :=
  let noteList := store.List userID
  if noteList = none then some [] else noteList

/-- The branch `http.MethodPost` of `handleNotes`, from the decoded input on: an
error response (status and message) and the store as it was, or the status
`StatusCreated` with the created note. -/
def handleNotesPost (store : notes.Store) (bits : Nat) (now : Time) (userID : String)
    (input : notes.CreateInput) : notes.Store × Except (Nat × String) (Nat × notes.Note) :=
  if input.Title = "" then (store, .error (StatusBadRequest, "title is required"))
  else
    let r := store.Create bits now userID input
    (r.1, .ok (StatusCreated, r.2))

end server

deriving instance DecidableEq for Except

/-! ## Lemmas on the map operations -/

theorem mapGet_mapSet_self {K V : Type} [DecidableEq K] (m : List (K × V)) (k : K) (v : V) :
    mapGet (mapSet m k v) k = some v := by
  induction m with
  | nil => simp [mapSet, mapGet]
  | cons e rest ih =>
    obtain ⟨k1, v1⟩ := e
    by_cases hk : k1 = k
    · simp [mapSet, mapGet, hk]
    · simp [mapSet, mapGet, hk, ih]

theorem mapGet_mapSet_ne {K V : Type} [DecidableEq K] (m : List (K × V)) (k k2 : K) (v : V)
    (h : k2 ≠ k) : mapGet (mapSet m k v) k2 = mapGet m k2 := by
  induction m with
  | nil => simp [mapSet, mapGet, h.symm]
  | cons e rest ih =>
    obtain ⟨k1, v1⟩ := e
    by_cases hk : k1 = k
    · subst hk
      simp [mapSet, mapGet, h.symm]
    · by_cases hk2 : k1 = k2
      · subst hk2
        simp [mapSet, mapGet, h]
      · simp [mapSet, mapGet, hk, hk2, ih]

theorem mapGet_mapDelete {K V : Type} [DecidableEq K] (m : List (K × V)) (k k2 : K) :
    mapGet (mapDelete m k) k2 = if k2 = k then none else mapGet m k2 := by
  induction m with
  | nil => simp [mapDelete, mapGet]
  | cons e rest ih =>
    obtain ⟨k1, v1⟩ := e
    unfold mapDelete at ih ⊢
    simp only [ne_eq, decide_not] at ih ⊢
    by_cases hk : k1 = k
    · subst hk
      by_cases hk2 : k2 = k1
      · subst hk2
        simpa [List.filter_cons, mapGet] using ih
      · simp [List.filter_cons, mapGet, ih, hk2, Ne.symm hk2]
    · by_cases hk2 : k2 = k
      · subst hk2
        simp [List.filter_cons, mapGet, ih, hk]
      · by_cases hk3 : k1 = k2
        · simp [List.filter_cons, mapGet, ih, hk, hk2, hk3]
        · simp [List.filter_cons, mapGet, ih, hk, hk2, hk3]

/-! ## The note store -/

namespace notes

/-- The loop of `List` keeps what the slice held and appends the caller's notes in
map order. -/
theorem foldl_list_elems (userID : String) (l : List (String × Note)) (acc : Slice Note) :
    Slice.elems (l.foldl
      (fun result e => if e.2.UserID = userID then Slice.append result e.2 else result) acc)
      = Slice.elems acc ++ (l.map Prod.snd).filter (fun n => decide (n.UserID = userID)) := by
  induction l generalizing acc with
  | nil => simp
  | cons e rest ih =>
    simp only [List.foldl_cons, List.map_cons]
    rw [ih]
    by_cases hu : e.2.UserID = userID
    · cases acc <;> simp [hu, Slice.append, Slice.elems, List.filter_cons]
    · simp [hu, List.filter_cons]

/-- The elements of `List(userID)` are the stored notes whose owner is `userID`. -/
theorem List_elems (s : Store) (userID : String) :
    (s.List userID).elems
      = (s.notes.map Prod.snd).filter (fun n => decide (n.UserID = userID)) := by
  unfold Store.List
  rw [foldl_list_elems]
  simp [Slice.elems]

/-- A stored note of another owner: `Get` answers `ErrForbidden` and `List` leaves
it out. -/
theorem foreign_note_hidden (s : Store) (o1 o2 id : String) (n : Note) (h : o1 ≠ o2)
    (hget : mapGet s.notes id = some n) (hown : n.UserID = o1) :
    s.Get o2 id = .error .ErrForbidden ∧ n ∉ (s.List o2).elems := by
  constructor
  · simp [Store.Get, hget, hown, h]
  · rw [List_elems]
    simp [hown, h]

/-- What a successful `Update` returns and stores. -/
theorem Update_eq (s : Store) (now : Time) (o id : String) (input : UpdateInput) (n : Note)
    (hget : mapGet s.notes id = some n) (hown : n.UserID = o) :
    s.Update now o id input =
      ({ s with
          notes := mapSet s.notes id
            { ID := n.ID
              UserID := n.UserID
              Title := input.Title.getD n.Title
              Body := input.Body.getD n.Body
              Done := input.Done.getD n.Done
              Priority := input.Priority.getD n.Priority
              Tags := if input.Tags = none then n.Tags else input.Tags
              CreatedAt := n.CreatedAt
              UpdatedAt := now } },
       .ok { ID := n.ID
             UserID := n.UserID
             Title := input.Title.getD n.Title
             Body := input.Body.getD n.Body
             Done := input.Done.getD n.Done
             Priority := input.Priority.getD n.Priority
             Tags := if input.Tags = none then n.Tags else input.Tags
             CreatedAt := n.CreatedAt
             UpdatedAt := now }) := by
  subst hown
  unfold Store.Update
  rw [hget]
  simp only [ne_eq, not_true_eq_false, if_false]
  obtain ⟨t, b, d, p, g⟩ := input
  cases t <;> cases b <;> cases d <;> cases p <;> cases g <;>
    simp [Note.assignTitle, Note.assignBody, Note.assignDone, Note.assignPriority,
      Note.assignTags]

/-- An `Update`, whoever calls it and whatever it returns, leaves every stored note
its owner. -/
theorem Update_keeps_owner (s : Store) (now : Time) (u id2 : String) (input : UpdateInput)
    (id : String) (n m : Note) (hget : mapGet s.notes id = some n)
    (hm : mapGet (s.Update now u id2 input).1.notes id = some m) : m.UserID = n.UserID := by
  cases h2 : mapGet s.notes id2 with
  | none =>
    simp only [Store.Update, h2] at hm
    rw [hget] at hm
    cases hm
    rfl
  | some n2 =>
    by_cases hown : n2.UserID = u
    · rw [Update_eq s now u id2 input n2 h2 hown] at hm
      by_cases hid : id = id2
      · subst hid
        rw [hget] at h2
        cases h2
        simp only [mapGet_mapSet_self, Option.some.injEq] at hm
        subst hm
        rfl
      · simp only [mapGet_mapSet_ne _ _ _ _ hid] at hm
        rw [hget] at hm
        cases hm
        rfl
    · simp only [Store.Update, h2, ne_eq, hown, not_false_eq_true, if_true] at hm
      rw [hget] at hm
      cases hm
      rfl

/-- What a store holds after a `Delete` it held before. -/
theorem Delete_keeps_note (s : Store) (u id2 id : String) (m : Note)
    (hm : mapGet (s.Delete u id2).1.notes id = some m) : mapGet s.notes id = some m := by
  cases h2 : mapGet s.notes id2 with
  | none => simpa [Store.Delete, h2] using hm
  | some n2 =>
    by_cases hown : n2.UserID = u
    · simp only [Store.Delete, h2, ne_eq, hown, not_true_eq_false, if_false,
        mapGet_mapDelete] at hm
      by_cases hid : id = id2
      · simp [hid] at hm
      · simpa [hid] using hm
    · simpa [Store.Delete, h2, hown] using hm

/-- What a store holds after a `Create` under another identifier than the new one it
held before. -/
theorem Create_keeps_note (bits : Nat) (s : Store) (now : Time) (u : String) (input : CreateInput)
    (id : String) (hid : id ≠ (s.Create bits now u input).2.ID) :
    mapGet (s.Create bits now u input).1.notes id = mapGet s.notes id := by
  simp only [Store.Create, Store.newID] at hid ⊢
  exact mapGet_mapSet_ne _ _ _ _ hid

/-- C1: for owners `o1 ≠ o2`, a note created by `Create(o1, input)` is invisible to
`o2`. Right after the `Create`, `Get(o2, id)` fails with `ErrForbidden` and
`List(o2)` does not contain the note. In every store state that holds, under
any identifier, a note whose owner is `o1`, `Get(o2, id)` fails with
`ErrForbidden` and `List(o2)` does not contain that note. And the owner that
`Create` wrote stays: a note that is still stored after an `Update` has the
owner it had, a note still stored after a `Delete` is the note as it was, and a
later `Create` only writes under its own new identifier. -/
theorem other_owner_cannot_see_note (bits : Nat) (s : Store) (now : Time) (o1 o2 : String)
    (input : CreateInput) (h : o1 ≠ o2) :
    ((s.Create bits now o1 input).1.Get o2 (s.Create bits now o1 input).2.ID = .error .ErrForbidden
      ∧ (s.Create bits now o1 input).2 ∉ ((s.Create bits now o1 input).1.List o2).elems)
    ∧ (∀ (s2 : Store) (id : String) (n : Note),
        mapGet s2.notes id = some n → n.UserID = o1 →
          s2.Get o2 id = .error .ErrForbidden ∧ n ∉ (s2.List o2).elems)
    ∧ (∀ (s2 : Store) (now2 : Time) (u id2 id : String) (n m : Note),
        mapGet s2.notes id = some n →
          (∀ input2 : UpdateInput,
            mapGet (s2.Update now2 u id2 input2).1.notes id = some m → m.UserID = n.UserID)
          ∧ (mapGet (s2.Delete u id2).1.notes id = some m → m = n)
          ∧ (∀ input2 : CreateInput, id ≠ (s2.Create bits now2 u input2).2.ID →
              mapGet (s2.Create bits now2 u input2).1.notes id = some n)) := by
  refine ⟨?_, fun s2 id n hget hown => foreign_note_hidden s2 o1 o2 id n h hget hown, ?_⟩
  · apply foreign_note_hidden _ o1 o2 _ _ h
    · simp [Store.Create, Store.newID, mapGet_mapSet_self]
    · simp [Store.Create]
  · intro s2 now2 u id2 id n m hget
    refine ⟨fun input2 hm => Update_keeps_owner s2 now2 u id2 input2 id n m hget hm, ?_, ?_⟩
    · intro hm
      have := Delete_keeps_note s2 u id2 id m hm
      rw [hget] at this
      cases this
      rfl
    · intro input2 hid
      rw [Create_keeps_note bits s2 now2 u input2 id hid, hget]

/-- The test `TestGetUpdateDelete`: `u1` creates a note in a new store, and `u2`
gets `ErrForbidden` for it and does not find it in its list. -/
theorem other_owner_cannot_see_note_witness :
    (NewStore.Create 64 5 "u1" { Title := "Test", Body := "", Priority := "", Tags := none }).1.Get
        "u2" "note_1" = .error .ErrForbidden
      ∧ (NewStore.Create 64 5 "u1" { Title := "Test", Body := "", Priority := "", Tags := none }).2 ∉
        ((NewStore.Create 64 5 "u1"
          { Title := "Test", Body := "", Priority := "", Tags := none }).1.List "u2").elems :=
  (other_owner_cannot_see_note 64 NewStore 5 "u1" "u2"
    { Title := "Test", Body := "", Priority := "", Tags := none } (by decide)).1

/-- C8: `Update(o2, id, input)` and `Delete(o2, id)` on a note of another owner both
fail with `ErrForbidden`, and on an identifier that is not in the store both fail
with `ErrNotFound`; in all four cases the store that results is the store as it
was: every note with all its fields, and the counter. -/
theorem rejected_update_delete_change_nothing (s : Store) (now : Time) (o2 id : String)
    (input : UpdateInput) :
    (∀ n : Note, mapGet s.notes id = some n → n.UserID ≠ o2 →
        s.Update now o2 id input = (s, .error .ErrForbidden)
          ∧ s.Delete o2 id = (s, .error .ErrForbidden))
    ∧ (mapGet s.notes id = none →
        s.Update now o2 id input = (s, .error .ErrNotFound)
          ∧ s.Delete o2 id = (s, .error .ErrNotFound)) := by
  constructor
  · intro n hget hown
    simp [Store.Update, Store.Delete, hget, hown]
  · intro hget
    simp [Store.Update, Store.Delete, hget]

/-- The test `TestGetUpdateDelete`, continued: `u1` creates a note, and an `Update`
and a `Delete` of it by `u2` are refused and return the store as it was. -/
theorem rejected_update_delete_change_nothing_witness :
    (NewStore.Create 64 5 "u1" { Title := "Test", Body := "", Priority := "", Tags := none }).1.Update
        6 "u2" "note_1"
        { Title := some "X", Body := none, Done := some true, Priority := none, Tags := none }
      = ((NewStore.Create 64 5 "u1"
          { Title := "Test", Body := "", Priority := "", Tags := none }).1, .error .ErrForbidden)
    ∧ (NewStore.Create 64 5 "u1" { Title := "Test", Body := "", Priority := "", Tags := none }).1.Delete
        "u2" "note_1"
      = ((NewStore.Create 64 5 "u1"
          { Title := "Test", Body := "", Priority := "", Tags := none }).1, .error .ErrForbidden) :=
  (rejected_update_delete_change_nothing
    (NewStore.Create 64 5 "u1" { Title := "Test", Body := "", Priority := "", Tags := none }).1
    6 "u2" "note_1"
    { Title := some "X", Body := none, Done := some true, Priority := none, Tags := none }).1
    { ID := "note_1", UserID := "u1", Title := "Test", Body := "", Done := false,
      Priority := "medium", Tags := some [], CreatedAt := 5, UpdatedAt := 5 }
    (by decide) (by decide)

/-- C9: a successful `Update(o, id, input)` on a note `n` of `o` returns the note in
which each present field (Title, Body, Done, Priority, Tags) is the supplied
value, each absent field is as in `n`, ID, UserID and CreatedAt are as in `n`,
and UpdatedAt is the current instant whatever the input holds; that note is what
`Get(o, id)` finds afterwards, and no other identifier nor the counter changes. -/
theorem update_replaces_present_fields (s : Store) (now : Time) (o id : String)
    (input : UpdateInput) (n : Note) (hget : mapGet s.notes id = some n)
    (hown : n.UserID = o) :
    (s.Update now o id input).2 = .ok
        { ID := n.ID
          UserID := n.UserID
          Title := input.Title.getD n.Title
          Body := input.Body.getD n.Body
          Done := input.Done.getD n.Done
          Priority := input.Priority.getD n.Priority
          Tags := if input.Tags = none then n.Tags else input.Tags
          CreatedAt := n.CreatedAt
          UpdatedAt := now }
      ∧ (s.Update now o id input).1.Get o id = (s.Update now o id input).2
      ∧ (∀ k : String, k ≠ id →
          mapGet (s.Update now o id input).1.notes k = mapGet s.notes k)
      ∧ (s.Update now o id input).1.counter = s.counter := by
  rw [Update_eq s now o id input n hget hown]
  refine ⟨rfl, ?_, ?_, rfl⟩
  · simp [Store.Get, mapGet_mapSet_self, hown]
  · intro k hk
    simp [mapGet_mapSet_ne _ _ _ _ hk]

/-- The spec's scenario: create a note with title "A" and body "B", update it with
only the title "C"; the result has title "C", body still "B", and the new
UpdatedAt. -/
theorem update_replaces_present_fields_witness :
    ((NewStore.Create 64 1 "u1" { Title := "A", Body := "B", Priority := "", Tags := none }).1.Update
        2 "u1" "note_1"
        { Title := some "C", Body := none, Done := none, Priority := none, Tags := none }).2
      = .ok { ID := "note_1", UserID := "u1", Title := "C", Body := "B", Done := false,
              Priority := "medium", Tags := some [], CreatedAt := 1, UpdatedAt := 2 } :=
  (update_replaces_present_fields
    (NewStore.Create 64 1 "u1" { Title := "A", Body := "B", Priority := "", Tags := none }).1
    2 "u1" "note_1"
    { Title := some "C", Body := none, Done := none, Priority := none, Tags := none }
    { ID := "note_1", UserID := "u1", Title := "A", Body := "B", Done := false,
      Priority := "medium", Tags := some [], CreatedAt := 1, UpdatedAt := 1 }
    (by decide) (by decide)).1

/-- C10: if `n = Create(o, input)`, the `Get(o, n.ID)` that follows at once succeeds
and returns a note equal to `n` in every field, CreatedAt and UpdatedAt
included. -/
theorem create_then_get (bits : Nat) (s : Store) (now : Time) (o : String) (input : CreateInput) :
    (s.Create bits now o input).1.Get o (s.Create bits now o input).2.ID
      = .ok (s.Create bits now o input).2 := by
  simp [Store.Create, Store.Get, Store.newID, mapGet_mapSet_self]

end notes

/-! ## The credential store -/

namespace auth

/-- What a successful `Register` leaves behind: the name was free, the record is
stored under the name, and its hash is the salted hash of the password. -/
theorem Register_ok_inv (lib : Lib) (s s1 : UserStore) (rnd : Entropy) (now : Time)
    (u p : GoString) (r : User) (h : s.Register lib rnd now u p = (s1, .ok r)) :
    mapGet s.users u = none ∧ mapGet s1.users u = some r ∧ r.Username = u
      ∧ r.PasswordHash = hashPassword lib p r.Salt := by
  unfold UserStore.Register at h
  cases hu : mapGet s.users u with
  | some x => simp [hu] at h
  | none =>
    simp only [hu] at h
    cases hs : generateSalt lib rnd.salt with
    | error e => simp [hs] at h
    | ok salt =>
      simp only [hs, Prod.mk.injEq, Except.ok.injEq] at h
      obtain ⟨h1, h2⟩ := h
      subst h1 h2
      simp [mapGet_mapSet_self]

/-- A `Register` call, whatever its outcome, keeps every record already stored. -/
theorem Register_keeps (lib : Lib) (s : UserStore) (rnd : Entropy) (now : Time)
    (u2 p2 u : GoString) (r : User) (h : mapGet s.users u = some r) :
    mapGet (s.Register lib rnd now u2 p2).1.users u = some r := by
  unfold UserStore.Register
  cases hu : mapGet s.users u2 with
  | some x => simpa using h
  | none =>
    have hne : u ≠ u2 := by
      intro e
      subst e
      rw [h] at hu
      cases hu
    cases hs : generateSalt lib rnd.salt with
    | error e => simpa using h
    | ok salt => simp [mapGet_mapSet_ne _ _ _ _ hne, h]

theorem registerAll_keeps (lib : Lib) (later : List (Entropy × Time × GoString × GoString))
    (s : UserStore) (u : GoString) (r : User) (h : mapGet s.users u = some r) :
    mapGet (s.registerAll lib later).users u = some r := by
  induction later generalizing s with
  | nil => simpa [UserStore.registerAll] using h
  | cons c rest ih =>
    obtain ⟨rnd, now, u2, p2⟩ := c
    simp only [UserStore.registerAll]
    exact ih _ (Register_keeps lib s rnd now u2 p2 u r h)

/-- After `Register(u, p)` stored `r`, `Login(u, p2)` compares the salted hash of
`p2` with the salted hash of `p`. -/
theorem Login_after_Register (lib : Lib) (s s1 : UserStore) (rnd : Entropy) (now : Time)
    (u p p2 : GoString) (r : User) (h : s.Register lib rnd now u p = (s1, .ok r)) :
    s1.Login lib u p2 =
      if hashPassword lib p2 r.Salt ≠ hashPassword lib p r.Salt then .error .ErrWrongPassword
      else .ok r := by
  obtain ⟨_, hget, _, hhash⟩ := Register_ok_inv lib s s1 rnd now u p r h
  simp [UserStore.Login, hget, hhash]

/-- C5: after `Register(u, p)` has succeeded with the record `r`, a second
`Register(u, p2)`, whatever its password, entropy and clock, fails with
`ErrUserExists` and returns no user, the store is the store as it was, and the
record stored for `u` is still `r`: ID, salt, password hash and creation time
of the first call. -/
theorem second_register_rejected (lib : Lib) (s s1 : UserStore) (rnd rnd2 : Entropy)
    (now now2 : Time) (u p p2 : GoString) (r : User)
    (h : s.Register lib rnd now u p = (s1, .ok r)) :
    (s1.Register lib rnd2 now2 u p2).2 = .error .ErrUserExists
      ∧ (s1.Register lib rnd2 now2 u p2).1 = s1
      ∧ mapGet (s1.Register lib rnd2 now2 u p2).1.users u = some r := by
  obtain ⟨_, hget, _, _⟩ := Register_ok_inv lib s s1 rnd now u p r h
  simp [UserStore.Register, hget]

/-- The test `TestRegisterAndLogin`: "alice" registers, and registering "alice" again
with the password "other" is refused and changes nothing. -/
theorem second_register_rejected_witness :
    ((NewUserStore.Register toyLib draw1 7 (str "alice")
        (str "password123")).1.Register toyLib draw2 8 (str "alice") (str "other")).2
      = .error .ErrUserExists :=
  (second_register_rejected toyLib NewUserStore _ draw1
    draw2 7 8 (str "alice") (str "password123") (str "other")
    alice
    (by decide)).1

/-- C6: if `Register(u, p)` succeeds and returns the user `r`, then `Login(u, p)` on
the same store, at once or after any further `Register` calls, succeeds and
returns the record `r` itself (same identifier, same username `u`), whatever
salt and identifier the registration drew. -/
theorem login_after_register (lib : Lib) (s s1 : UserStore) (rnd : Entropy) (now : Time)
    (u p : GoString) (r : User) (h : s.Register lib rnd now u p = (s1, .ok r))
    (later : List (Entropy × Time × GoString × GoString)) :
    (s1.registerAll lib later).Login lib u p = .ok r ∧ r.Username = u := by
  obtain ⟨_, hget, hname, hhash⟩ := Register_ok_inv lib s s1 rnd now u p r h
  refine ⟨?_, hname⟩
  have hget2 := registerAll_keeps lib later s1 u r hget
  simp [UserStore.Login, hget2, hhash]

/-- The test `TestRegisterAndLogin`: "alice" registers, a second registration of
"alice" and one of "bob" follow, and "alice" logs in with her password. -/
theorem login_after_register_witness :
    ((NewUserStore.Register toyLib draw1 7 (str "alice") (str "password123")).1.registerAll
        toyLib [(draw2, 8, str "alice", str "other"), (draw2, 9, str "bob", str "pass")]).Login
        toyLib (str "alice") (str "password123") = .ok alice :=
  (login_after_register toyLib NewUserStore _ draw1 7 (str "alice") (str "password123") alice
    (by decide) [(draw2, 8, str "alice", str "other"), (draw2, 9, str "bob", str "pass")]).1

/-- What `Login` decides with: after `Register(u, p)` stored `r`, `Login(u, p2)`
fails with `ErrWrongPassword` for a password `p2` whose salted hash differs
from that of `p`, and returns `r` for a `p2` whose salted hash is the same.
Whether another password can have the same salted hash is a question about
SHA-256 that the package does not answer. -/
theorem login_compares_hashes (lib : Lib) (s s1 : UserStore) (rnd : Entropy)
    (now : Time) (u p p2 : GoString) (r : User)
    (h : s.Register lib rnd now u p = (s1, .ok r)) :
    (hashPassword lib p2 r.Salt ≠ hashPassword lib p r.Salt →
        s1.Login lib u p2 = .error .ErrWrongPassword)
    ∧ (hashPassword lib p2 r.Salt = hashPassword lib p r.Salt →
        s1.Login lib u p2 = .ok r) := by
  rw [Login_after_Register lib s s1 rnd now u p p2 r h]
  constructor
  · intro hne
    simp [hne]
  · intro heq
    simp [heq]

/-- The test `TestRegisterAndLogin` with `toyLib`: "alice" registers with
"password123" and the login with "wrong" is refused with `ErrWrongPassword`. -/
theorem login_wrong_password_sample :
    (NewUserStore.Register toyLib draw1 7 (str "alice")
        (str "password123")).1.Login toyLib (str "alice") (str "wrong")
      = .error .ErrWrongPassword := by
  decide

/-- No function into 32-byte digests tells all passwords apart: the passwords are
infinitely many and the digests finitely many, so whatever stands for SHA-256,
under the salt of some registration two passwords `p ≠ p2` have the same salted
hash, and after `Register(u, p)` the call `Login(u, p2)` returns the user. The
proof gives no such pair of passwords. -/
theorem no_digest_separates_all_passwords :
    ¬ ∃ lib : Lib, ∀ (s s1 : UserStore) (rnd : Entropy) (now : Time) (u p p2 : GoString)
        (r : User), s.Register lib rnd now u p = (s1, .ok r) → p2 ≠ p →
          s1.Login lib u p2 = .error .ErrWrongPassword := by
  rintro ⟨lib, H⟩
  obtain ⟨p, p2, hne, heq⟩ := Finite.exists_ne_map_eq_of_infinite
    (fun pw : GoString => lib.sha256 (lib.stdEncode (List.replicate 16 0) ++ pw))
  have hreg : ∃ s1 r, NewUserStore.Register lib ⟨.ok (List.replicate 16 0), List.replicate 8 0⟩
      0 [] p = (s1, .ok r) ∧ r.Salt = lib.stdEncode (List.replicate 16 0) :=
    ⟨_, _, rfl, rfl⟩
  obtain ⟨s1, r, hreg, hsalt⟩ := hreg
  have hrej := H _ _ _ _ _ _ p2 _ hreg (Ne.symm hne)
  have heq2 : lib.sha256 (lib.stdEncode (List.replicate 16 0) ++ p)
      = lib.sha256 (lib.stdEncode (List.replicate 16 0) ++ p2) := heq
  have hh : hashPassword lib p2 r.Salt = hashPassword lib p r.Salt := by
    simp only [hashPassword, hsalt, heq2]
  rw [Login_after_Register lib _ _ _ _ _ p p2 r hreg, if_neg (not_not.mpr hh)] at hrej
  cases hrej

end auth

/-! ## The token manager -/

namespace auth

theorem cutDot_append (a b : List Byte) (h : dot ∉ a) :
    cutDot (a ++ dot :: b) = some (a, b) := by
  induction a with
  | nil => simp [cutDot]
  | cons c cs ih =>
    have hc : c ≠ dot := fun e => h (by simp [e])
    have hcs : dot ∉ cs := fun e => h (by simp [e])
    simp [cutDot, hc, ih hcs]

/-- A text without `.`, a `.` and a second text split into the two texts. -/
theorem splitN2_join (a b : GoString) (h : dot ∉ a) :
    splitN2 (a ++ [dot] ++ b) = [a, b] := by
  have hdata : a ++ [dot] ++ b = a ++ dot :: b := by simp
  simp [splitN2, hdata, cutDot_append _ _ h]

/-- The checks of `ValidateToken` on a token that splits into two parts. -/
theorem validate_of_parts (lib : Lib) (tm : TokenManager) (now : Time)
    (token p0 p1 : GoString) (hsplit : splitN2 token = [p0, p1]) :
    tm.ValidateToken lib now token =
      if tm.sign lib p0 ≠ p1 then .error .ErrInvalidToken
      else match lib.rawURLDecode p0 with
        | none => .error .ErrInvalidToken
        | some payload =>
          match lib.jsonUnmarshal payload with
          | none => .error .ErrInvalidToken
          | some claims =>
            if now > claims.Expires then .error .ErrExpiredToken else .ok claims := by
  simp only [TokenManager.ValidateToken, hsplit]

/-- A token whose second segment is not the signature that the manager computes
over its first segment is refused with `ErrInvalidToken`, whatever else it
holds: the signature is recomputed, never taken from the token. This covers a
changed or lengthened signature segment of an issued token, and a changed
payload segment whenever the MAC of the changed payload differs. -/
theorem validate_rejects_signature_mismatch (lib : Lib) (tm : TokenManager) (now : Time)
    (p0 p1 : GoString) (hdot : dot ∉ p0) (hsig : tm.sign lib p0 ≠ p1) :
    tm.ValidateToken lib now (p0 ++ [dot] ++ p1) = .error .ErrInvalidToken := by
  rw [validate_of_parts lib tm now _ _ _ (splitN2_join _ _ hdot)]
  simp [hsig]

/-- Tampering with an issued token `enc.sig`, as far as the code decides it: another
second segment `sig2 ≠ sig` is refused, the token with any text appended (the
check of `TestTokenCreateAndValidate`) is refused, and another first segment
`enc2` is refused whenever the manager's signature of `enc2` is not `sig`.
Whether the signature of a changed payload can be `sig` again is a question
about HMAC-SHA256, which the package does not answer. -/
theorem tampered_token_rejected (lib : Lib) (tm : TokenManager) (now now2 : Time)
    (user : User) (ttl : Int) (token : GoString)
    (hcreate : tm.CreateToken lib now user ttl = .ok token)
    (hdot : ∀ payload, lib.jsonMarshal ⟨user.ID, user.Username, now + ttl⟩ = .ok payload →
      dot ∉ lib.rawURLEncode payload) :
    ∃ enc sig : GoString, token = enc ++ [dot] ++ sig
      ∧ (∀ sig2 : GoString, sig2 ≠ sig →
          tm.ValidateToken lib now2 (enc ++ [dot] ++ sig2) = .error .ErrInvalidToken)
      ∧ (∀ x : GoString, x ≠ [] →
          tm.ValidateToken lib now2 (token ++ x) = .error .ErrInvalidToken)
      ∧ (∀ enc2 : GoString, dot ∉ enc2 → tm.sign lib enc2 ≠ sig →
          tm.ValidateToken lib now2 (enc2 ++ [dot] ++ sig) = .error .ErrInvalidToken) := by
  unfold TokenManager.CreateToken at hcreate
  cases hm : lib.jsonMarshal ⟨user.ID, user.Username, now + ttl⟩ with
  | error e => simp [hm] at hcreate
  | ok payload =>
    simp only [hm, Except.ok.injEq] at hcreate
    have hd := hdot payload hm
    refine ⟨lib.rawURLEncode payload, tm.sign lib (lib.rawURLEncode payload), hcreate.symm,
      ?_, ?_, ?_⟩
    · intro sig2 hne
      exact validate_rejects_signature_mismatch lib tm now2 _ _ hd (Ne.symm hne)
    · intro x hx
      subst hcreate
      rw [List.append_assoc _ _ x]
      apply validate_rejects_signature_mismatch lib tm now2 _ _ hd
      intro e
      exact hx (List.self_eq_append_right.mp e)
    · intro enc2 hd2 hne
      exact validate_rejects_signature_mismatch lib tm now2 _ _ hd2 hne

/-- A string that `utf8.ValidString` accepts comes back from `encoding/json` as it
went in. -/
theorem coerceAux_of_valid (s : List Byte) :
    ∀ k : Nat, validAux k s = true → coerceAux k s = s := by
  induction s with
  | nil => intro k _; cases k <;> rfl
  | cons b rest ih =>
    intro k h
    cases k with
    | succ k =>
      simp only [validAux] at h
      simp only [coerceAux, ih k h]
    | zero =>
      simp only [validAux] at h
      by_cases hw : runeWidth (b :: rest) = 0
      · simp [hw] at h
      · simp only [hw, if_false] at h
        simp only [coerceAux, hw, if_false, ih _ h]

/-- The coercion never shortens a string. -/
theorem coerceAux_length (s : List Byte) :
    ∀ k : Nat, s.length ≤ (coerceAux k s).length := by
  induction s with
  | nil => intro k; simp
  | cons b rest ih =>
    intro k
    cases k with
    | succ k =>
      simp only [coerceAux, List.length_cons]
      exact Nat.succ_le_succ (ih k)
    | zero =>
      by_cases hw : runeWidth (b :: rest) = 0
      · simp only [coerceAux, hw, if_true, List.length_cons]
        have := ih 0
        omega
      · simp only [coerceAux, hw, if_false, List.length_cons]
        exact Nat.succ_le_succ (ih _)

/-- A string that comes back from `encoding/json` as it went in is one that
`utf8.ValidString` accepts. -/
theorem valid_of_coerceAux (s : List Byte) :
    ∀ k : Nat, coerceAux k s = s → validAux k s = true := by
  induction s with
  | nil => intro k _; cases k <;> rfl
  | cons b rest ih =>
    intro k h
    cases k with
    | succ k =>
      simp only [coerceAux, List.cons.injEq, true_and] at h
      simp only [validAux]
      exact ih k h
    | zero =>
      by_cases hw : runeWidth (b :: rest) = 0
      · exfalso
        simp only [coerceAux, hw, if_true] at h
        have hl := congrArg List.length h
        simp only [List.length_cons] at hl
        have := coerceAux_length rest 0
        omega
      · simp only [coerceAux, hw, if_false, List.cons.injEq, true_and] at h
        simp only [validAux, hw, if_false]
        exact ih _ h

/-- The strings that `encoding/json` leaves as they are, are the valid UTF-8
strings. -/
theorem coerceUTF8_eq_iff (s : GoString) : coerceUTF8 s = s ↔ validUTF8 s = true :=
  ⟨valid_of_coerceAux s 0, coerceAux_of_valid s 0⟩

/-- C3, as amended: the token that `CreateToken(user, ttl)` returns at the instant
`now`, passed unchanged to `ValidateToken` on the same manager at an instant
`now2` not after the expiry instant `now + ttl`, is accepted, and the claims
returned hold the expiry instant `now + ttl` and the ID and the username of the
user as `encoding/json` reads them back: with every byte that is not part of a
well-formed UTF-8 sequence replaced by U+FFFD. The claims returned are the
input exactly when the ID and the username are valid UTF-8. The standard
library enters through three facts about the payload of this token: its
base64url text holds no `.`, decoding that text gives the payload back, and
unmarshalling the payload gives the coerced claims. -/
theorem validate_accepts_created_token (lib : Lib) (tm : TokenManager) (now now2 : Time)
    (user : User) (ttl : Int) (token : GoString)
    (hcreate : tm.CreateToken lib now user ttl = .ok token)
    (hdot : ∀ payload, lib.jsonMarshal ⟨user.ID, user.Username, now + ttl⟩ = .ok payload →
      dot ∉ lib.rawURLEncode payload)
    (hb64 : ∀ payload, lib.jsonMarshal ⟨user.ID, user.Username, now + ttl⟩ = .ok payload →
      lib.rawURLDecode (lib.rawURLEncode payload) = some payload)
    (hjson : ∀ payload, lib.jsonMarshal ⟨user.ID, user.Username, now + ttl⟩ = .ok payload →
      lib.jsonUnmarshal payload
        = some ⟨coerceUTF8 user.ID, coerceUTF8 user.Username, now + ttl⟩)
    (hnow : now2 ≤ now + ttl) :
    tm.ValidateToken lib now2 token
        = .ok { UserID := coerceUTF8 user.ID, Username := coerceUTF8 user.Username,
                Expires := now + ttl }
    ∧ (tm.ValidateToken lib now2 token
          = .ok { UserID := user.ID, Username := user.Username, Expires := now + ttl }
        ↔ validUTF8 user.ID = true ∧ validUTF8 user.Username = true) := by
  have hval : tm.ValidateToken lib now2 token
      = .ok { UserID := coerceUTF8 user.ID, Username := coerceUTF8 user.Username,
              Expires := now + ttl } := by
    unfold TokenManager.CreateToken at hcreate
    cases hm : lib.jsonMarshal ⟨user.ID, user.Username, now + ttl⟩ with
    | error e => simp [hm] at hcreate
    | ok payload =>
      simp only [hm, Except.ok.injEq] at hcreate
      subst hcreate
      rw [validate_of_parts lib tm now2 _ _ _ (splitN2_join _ _ (hdot payload hm))]
      simp [hb64 payload hm, hjson payload hm, not_lt.mpr hnow]
  refine ⟨hval, ?_⟩
  rw [hval, ← coerceUTF8_eq_iff, ← coerceUTF8_eq_iff]
  constructor
  · intro h
    simp only [Except.ok.injEq, Claims.mk.injEq, and_true] at h
    exact h
  · rintro ⟨h1, h2⟩
    rw [h1, h2]

/-- The test `TestTokenCreateAndValidate`: a token issued to "bob" at instant 100
for 50 nanoseconds is accepted at instant 120 and carries bob's claims. -/
theorem validate_accepts_created_token_witness :
    (NewTokenManager (str "test-secret")).ValidateToken toyLib 120 bobToken
      = .ok { UserID := str "01", Username := str "bob", Expires := 150 } :=
  (validate_accepts_created_token toyLib (NewTokenManager (str "test-secret")) 100 120
    bob 50 bobToken (by decide)
    (by intro payload h; cases h; decide)
    (by intro payload h; cases h; decide)
    (by intro payload h; cases h; decide)
    (by decide)).2.mpr ⟨by decide, by decide⟩

/-- C3 fails as stated for a user whose name is not valid UTF-8. The name of
`bobFF` is `bob` followed by the byte `FF`; the token issued to `bobFF` at
instant 100 for 50 nanoseconds is accepted at instant 120, and the username of
the claims returned is `bob` followed by the three bytes `EF BF BD` of U+FFFD,
not the username of the input. -/
theorem invalid_utf8_name_comes_back_changed :
    bobFF.Username = [0x62, 0x6F, 0x62, 0xFF]
    ∧ (NewTokenManager (str "test-secret")).CreateToken toyLib 100 bobFF 50 = .ok bobFFToken
    ∧ (NewTokenManager (str "test-secret")).ValidateToken toyLib 120 bobFFToken
        = .ok { UserID := str "01", Username := [0x62, 0x6F, 0x62, 0xEF, 0xBF, 0xBD],
                Expires := 150 } := by
  decide

/-- C4, as amended: for a correctly signed, well-formed token (it splits into two
segments, the second is the manager's signature of the first, the first decodes
and unmarshals to the claims `c`), `ValidateToken` fails with `ErrExpiredToken`
if the current instant is after the expiry instant of `c`, and returns `c`
otherwise, also when the current instant is the expiry instant. -/
theorem validate_expired_iff_after_expiry (lib : Lib) (tm : TokenManager) (now : Time)
    (token p0 p1 : GoString) (payload : List Byte) (c : Claims)
    (hsplit : splitN2 token = [p0, p1]) (hsig : tm.sign lib p0 = p1)
    (hdec : lib.rawURLDecode p0 = some payload) (hjson : lib.jsonUnmarshal payload = some c) :
    tm.ValidateToken lib now token
      = if c.Expires < now then .error .ErrExpiredToken else .ok c := by
  rw [validate_of_parts lib tm now _ _ _ hsplit]
  simp [hsig, hdec, hjson]

/-- The test `TestTokenCreateAndValidate`: bob's token, which expires at instant
150, is refused with `ErrExpiredToken` at instant 151. -/
theorem validate_expired_iff_after_expiry_witness :
    (NewTokenManager (str "test-secret")).ValidateToken toyLib 151 bobToken
      = .error .ErrExpiredToken :=
  validate_expired_iff_after_expiry toyLib (NewTokenManager (str "test-secret")) 151
    bobToken (str "3031ff626f62ff313530")
    (str "6d6d6d6d6d6d6d6d6d6d6d6d6d6d6d6d6d6d6d6d6d6d6d6d6d6d6d6d6d6d6d6d")
    (toyText bobClaims) bobClaims (by decide) (by decide) (by decide) (by decide)

/-- C4 fails as stated at the expiry instant itself: the token issued to bob at
instant 100 for 50 nanoseconds is correctly signed and decodes to claims that
expire at instant 150, and at instant 150 `ValidateToken` returns these claims,
not `ErrExpiredToken`. -/
theorem token_accepted_at_expiry_instant :
    (NewTokenManager (str "test-secret")).CreateToken toyLib 100 bob 50
        = .ok bobToken
      ∧ bobClaims.Expires = 150
      ∧ (NewTokenManager (str "test-secret")).ValidateToken toyLib 150 bobToken
        = .ok bobClaims := by
  decide

end auth

/-! ## Identifiers are not given out twice before the counter wraps -/

theorem wrapInt_succ (bits : Nat) (x : Int) :
    wrapInt bits (wrapInt bits x + 1) = wrapInt bits (x + 1) := by
  unfold wrapInt
  have h : (x + 2 ^ (bits - 1)) % 2 ^ bits - 2 ^ (bits - 1) + 1 + 2 ^ (bits - 1)
      = (x + 2 ^ (bits - 1)) % 2 ^ bits + 1 := by ring
  rw [h, Int.emod_add_emod]
  congr 2
  ring

/-- The wrapped counter of a new store stands at 0. -/
theorem wrapInt_zero (bits : Nat) (hw : bits = 32 ∨ bits = 64) : wrapInt bits 0 = 0 := by
  rcases hw with rfl | rfl <;> decide

/-- On `2 ^ bits` successive counts the wrapped counter takes no value twice. -/
theorem wrapInt_nat_inj (bits : Nat) (hw : bits = 32 ∨ bits = 64) (a b : Nat) (ha : 1 ≤ a)
    (hab : a ≤ b) (hb : b ≤ 2 ^ bits) (h : wrapInt bits a = wrapInt bits b) : a = b := by
  rcases hw with rfl | rfl
  · unfold wrapInt at h
    norm_num at h hb
    omega
  · unfold wrapInt at h
    norm_num at h hb
    omega

namespace notes

theorem digitChar_value (k : Nat) (h : k < 10) : (Nat.digitChar k).toNat - 48 = k := by
  interval_cases k <;> rfl

theorem digitChar_ne_minus (k : Nat) (h : k < 10) : Nat.digitChar k ≠ '-' := by
  interval_cases k <;> decide

theorem digitsValue_append (a : List Char) (c : Char) :
    digitsValue (a ++ [c]) = 10 * digitsValue a + (c.toNat - 48) := by
  simp [digitsValue, List.foldl_append]

/-- The digits that `Nat.toDigitsCore` puts before the accumulator are the decimal
digits of the number, and none of them is a minus sign. -/
theorem toDigitsCore_spec (fuel : Nat) : ∀ (n : Nat) (ds : List Char), n < fuel →
    ∃ pre : List Char, Nat.toDigitsCore 10 fuel n ds = pre ++ ds ∧ digitsValue pre = n
      ∧ ∀ c ∈ pre, c ≠ '-' := by
  induction fuel with
  | zero => intro n ds h; omega
  | succ f ih =>
    intro n ds h
    unfold Nat.toDigitsCore
    have hd : n % 10 < 10 := Nat.mod_lt n (by norm_num)
    by_cases h0 : n / 10 = 0
    · refine ⟨[Nat.digitChar (n % 10)], ?_, ?_, ?_⟩
      · simp [h0]
      · have hn : n % 10 = n := by omega
        have hv := digitChar_value _ hd
        rw [hn] at hv ⊢
        simpa [digitsValue] using hv
      · intro c hc
        simp only [List.mem_singleton] at hc
        subst hc
        exact digitChar_ne_minus _ hd
    · obtain ⟨pre, hpre, hval, hall⟩ :=
        ih (n / 10) (Nat.digitChar (n % 10) :: ds) (by omega)
      refine ⟨pre ++ [Nat.digitChar (n % 10)], ?_, ?_, ?_⟩
      · simp [h0, hpre]
      · rw [digitsValue_append, hval, digitChar_value _ hd]
        omega
      · intro c hc
        rcases List.mem_append.mp hc with hc | hc
        · exact hall c hc
        · simp only [List.mem_singleton] at hc
          subst hc
          exact digitChar_ne_minus _ hd

theorem toDigits_spec (n : Nat) :
    digitsValue (Nat.toDigits 10 n) = n ∧ ∀ c ∈ Nat.toDigits 10 n, c ≠ '-' := by
  obtain ⟨pre, hpre, hval, hall⟩ := toDigitsCore_spec (n + 1) n [] (by omega)
  have hp : Nat.toDigits 10 n = pre := by simpa [Nat.toDigits] using hpre
  rw [hp]
  exact ⟨hval, hall⟩

/-- The verb `%d` writes different integers as different texts. -/
theorem intToString_injective (a b : Int) (h : toString a = toString b) : a = b := by
  have hd := congrArg String.data h
  cases a with
  | ofNat m =>
    cases b with
    | ofNat k =>
      have e : Nat.toDigits 10 m = Nat.toDigits 10 k := hd
      have e2 := congrArg digitsValue e
      rw [(toDigits_spec m).1, (toDigits_spec k).1] at e2
      rw [e2]
    | negSucc k =>
      exfalso
      have e : Nat.toDigits 10 m = '-' :: Nat.toDigits 10 (k + 1) := hd
      exact (toDigits_spec m).2 '-' (by rw [e]; simp) rfl
  | negSucc m =>
    cases b with
    | ofNat k =>
      exfalso
      have e : '-' :: Nat.toDigits 10 (m + 1) = Nat.toDigits 10 k := hd
      exact (toDigits_spec k).2 '-' (by rw [← e]; simp) rfl
    | negSucc k =>
      have e : '-' :: Nat.toDigits 10 (m + 1) = '-' :: Nat.toDigits 10 (k + 1) := hd
      have e2 := congrArg digitsValue (List.cons.inj e).2
      rw [(toDigits_spec (m + 1)).1, (toDigits_spec (k + 1)).1] at e2
      have hmk : m = k := by omega
      rw [hmk]

/-- Among the first `2 ^ bits` identifiers no two are equal. -/
theorem nthID_inj (bits : Nat) (hw : bits = 32 ∨ bits = 64) (a b : Nat) (ha : 1 ≤ a)
    (hab : a ≤ b) (hb : b ≤ 2 ^ bits) (h : nthID bits a = nthID bits b) : a = b := by
  unfold nthID at h
  have hd := congrArg String.data h
  rw [String.data_append, String.data_append] at hd
  have hd2 := List.append_cancel_left hd
  have hs : toString (wrapInt bits a) = toString (wrapInt bits b) := String.ext hd2
  exact wrapInt_nat_inj bits hw a b ha hab hb (intToString_injective _ _ hs)

theorem Create_ID (bits : Nat) (s : Store) (now : Time) (u : String) (input : CreateInput) :
    (s.Create bits now u input).2.ID = "note_" ++ toString (wrapInt bits (s.counter + 1)) := by
  simp [Store.Create, Store.newID]

theorem Create_counter (bits : Nat) (s : Store) (now : Time) (u : String) (input : CreateInput) :
    (s.Create bits now u input).1.counter = wrapInt bits (s.counter + 1) := by
  simp [Store.Create, Store.newID]

theorem Create_owner (bits : Nat) (s : Store) (now : Time) (u : String) (input : CreateInput) :
    (s.Create bits now u input).2.UserID = u := by
  simp [Store.Create]

/-- The note that `Create` returns is stored under its identifier. -/
theorem Create_stored (bits : Nat) (s : Store) (now : Time) (u : String) (input : CreateInput) :
    mapGet (s.Create bits now u input).1.notes (s.Create bits now u input).2.ID
      = some (s.Create bits now u input).2 := by
  simp [Store.Create, Store.newID, mapGet_mapSet_self]

/-- On a store whose counter stands at `N`, `Create` returns the identifier
number `N + 1`. -/
theorem Create_ID_nth (bits : Nat) (s : Store) (N : Nat) (hc : s.counter = wrapInt bits N)
    (now : Time) (u : String) (input : CreateInput) :
    (s.Create bits now u input).2.ID = nthID bits (N + 1)
      ∧ (s.Create bits now u input).1.counter = wrapInt bits ((N + 1 : Nat) : Int) := by
  have h1 : wrapInt bits (s.counter + 1) = wrapInt bits ((N + 1 : Nat) : Int) := by
    rw [hc]
    exact (wrapInt_succ bits N).trans (congrArg (wrapInt bits) (Nat.cast_succ N).symm)
  constructor
  · rw [Create_ID, h1]
    rfl
  · rw [Create_counter, h1]

/-- An `Update` either leaves the store as it was, or replaces the note under its
identifier by a note with the same ID and owner. -/
theorem Update_cases (s : Store) (now : Time) (u id2 : String) (input : UpdateInput) :
    (s.Update now u id2 input).1 = s
      ∨ ∃ n n2 : Note, mapGet s.notes id2 = some n ∧ n2.ID = n.ID ∧ n2.UserID = n.UserID
          ∧ (s.Update now u id2 input).1 = { s with notes := mapSet s.notes id2 n2 } := by
  cases h2 : mapGet s.notes id2 with
  | none => left; simp [Store.Update, h2]
  | some n =>
    by_cases hown : n.UserID = u
    · right
      rw [Update_eq s now u id2 input n h2 hown]
      refine ⟨n, _, rfl, ?_, ?_, rfl⟩ <;> rfl
    · left
      simp [Store.Update, h2, hown]

/-- A `Delete` either leaves the store as it was, or removes the caller's note under
the identifier. -/
theorem Delete_cases (s : Store) (u id2 : String) :
    (s.Delete u id2) = (s, .error .ErrNotFound) ∨ (s.Delete u id2) = (s, .error .ErrForbidden)
      ∨ ∃ n : Note, mapGet s.notes id2 = some n ∧ n.UserID = u
          ∧ s.Delete u id2 = ({ s with notes := mapDelete s.notes id2 }, .ok ()) := by
  cases h2 : mapGet s.notes id2 with
  | none => left; simp [Store.Delete, h2]
  | some n =>
    by_cases hown : n.UserID = u
    · right; right
      exact ⟨n, rfl, hown, by simp [Store.Delete, h2, hown]⟩
    · right; left
      simp [Store.Delete, h2, hown]

theorem Issued_NewStore (bits : Nat) (hw : bits = 32 ∨ bits = 64) :
    NewStore.Issued bits 0 := by
  constructor
  · exact (wrapInt_zero bits hw).symm
  · intro k n h
    simp [NewStore, mapGet] at h

/-- One call keeps the store in the state `Issued`, with one more identifier given
out if the call is a `Create`. -/
theorem step_Issued (bits : Nat) (s : Store) (N : Nat) (h : s.Issued bits N) (op : Op) :
    (s.step bits op).Issued bits (N + creates [op]) := by
  obtain ⟨hc, hk⟩ := h
  cases op with
  | create now u input =>
    obtain ⟨hid, hcnt⟩ := Create_ID_nth bits s N hc now u input
    refine ⟨hcnt, ?_⟩
    intro k n hget
    simp only [Store.step] at hget
    by_cases hkid : k = (s.Create bits now u input).2.ID
    · subst hkid
      rw [Create_stored] at hget
      cases hget
      exact ⟨rfl, N + 1, by omega, by simp [creates], hid⟩
    · rw [Create_keeps_note bits s now u input k hkid] at hget
      obtain ⟨h1, j, hj1, hj2, hj3⟩ := hk k n hget
      exact ⟨h1, j, hj1, by simp [creates]; omega, hj3⟩
  | update now u id2 input =>
    simp only [Store.step, creates, Nat.add_zero]
    rcases Update_cases s now u id2 input with he | ⟨n, n2, hget, hid, _, he⟩
    · rw [he]; exact ⟨hc, hk⟩
    · rw [he]
      refine ⟨hc, ?_⟩
      intro k m hm
      simp only at hm
      by_cases hkid : k = id2
      · subst hkid
        rw [mapGet_mapSet_self] at hm
        cases hm
        obtain ⟨h1, hj⟩ := hk k n hget
        exact ⟨hid.trans h1, hj⟩
      · rw [mapGet_mapSet_ne _ _ _ _ hkid] at hm
        exact hk k m hm
  | delete u id2 =>
    simp only [Store.step, creates, Nat.add_zero]
    rcases Delete_cases s u id2 with he | he | ⟨n, _, _, he⟩
    · rw [he]; exact ⟨hc, hk⟩
    · rw [he]; exact ⟨hc, hk⟩
    · rw [he]
      refine ⟨hc, ?_⟩
      intro k m hm
      simp only [mapGet_mapDelete] at hm
      by_cases hkid : k = id2
      · simp [hkid] at hm
      · simp only [hkid, if_false] at hm
        exact hk k m hm

theorem creates_cons (op : Op) (rest : List Op) :
    creates (op :: rest) = creates [op] + creates rest := by
  cases op <;> simp [creates, Nat.add_comm]

theorem creates_append (a b : List Op) : creates (a ++ b) = creates a + creates b := by
  induction a with
  | nil => simp [creates]
  | cons op rest ih =>
    rw [List.cons_append, creates_cons, creates_cons op rest, ih, Nat.add_assoc]

/-- Running two sequences of calls one after the other. -/
theorem runOps_append (bits : Nat) (a b : List Op) :
    ∀ s : Store, runOps bits s (a ++ b) = runOps bits (runOps bits s a) b := by
  induction a with
  | nil => intro s; rfl
  | cons op rest ih => intro s; exact ih (s.step bits op)

/-- A sequence of calls keeps the store in the state `Issued`. -/
theorem runOps_Issued (bits : Nat) (ops : List Op) : ∀ (s : Store) (N : Nat), s.Issued bits N →
    (runOps bits s ops).Issued bits (N + creates ops) := by
  induction ops with
  | nil => intro s N h; simpa [runOps, creates] using h
  | cons op rest ih =>
    intro s N h
    have h2 := ih (s.step bits op) (N + creates [op]) (step_Issued bits s N h op)
    rw [creates_cons, ← Nat.add_assoc]
    exact h2

/-- A stored note of `o` that no call of the sequence deletes is still stored, and
still a note of `o`, after the sequence. -/
theorem runOps_keeps (bits : Nat) (hw : bits = 32 ∨ bits = 64) (ops : List Op) :
    ∀ (s : Store) (N : Nat) (o id : String) (n : Note),
    s.Issued bits N → N + creates ops ≤ 2 ^ bits → mapGet s.notes id = some n → n.UserID = o →
    Op.delete o id ∉ ops →
    ∃ m : Note, mapGet (runOps bits s ops).notes id = some m ∧ m.UserID = o ∧ m.ID = id := by
  induction ops with
  | nil =>
    intro s N o id n hI _ hget hown _
    exact ⟨n, by simpa [runOps] using hget, hown, (hI.2 id n hget).1⟩
  | cons op rest ih =>
    intro s N o id n hI hb hget hown hdel
    rw [creates_cons] at hb
    have hrest : Op.delete o id ∉ rest := fun h => hdel (List.mem_cons_of_mem _ h)
    have hop : op ≠ Op.delete o id := fun h => hdel (by rw [h]; exact List.mem_cons_self _ _)
    have hI2 := step_Issued bits s N hI op
    have key : ∃ m : Note, mapGet (s.step bits op).notes id = some m ∧ m.UserID = o := by
      cases op with
      | create now u input =>
        obtain ⟨_, j, hj1, hjN, hj⟩ := hI.2 id n hget
        obtain ⟨hid, _⟩ := Create_ID_nth bits s N hI.1 now u input
        have hne : id ≠ (s.Create bits now u input).2.ID := by
          rw [hid, hj]
          intro e
          have := nthID_inj bits hw j (N + 1) hj1 (by omega) (by simp [creates] at hb; omega) e
          omega
        exact ⟨n, by simp only [Store.step]; rw [Create_keeps_note bits s now u input _ hne, hget],
          hown⟩
      | update now u id2 input =>
        simp only [Store.step]
        rcases Update_cases s now u id2 input with he | ⟨n1, n2, hget2, _, hu, he⟩
        · rw [he]; exact ⟨n, hget, hown⟩
        · rw [he]
          by_cases hid : id = id2
          · subst hid
            rw [hget] at hget2
            cases hget2
            exact ⟨n2, by simp [mapGet_mapSet_self], hu.trans hown⟩
          · exact ⟨n, by simp only [mapGet_mapSet_ne _ _ _ _ hid]; exact hget, hown⟩
      | delete u id2 =>
        simp only [Store.step]
        rcases Delete_cases s u id2 with he | he | ⟨n1, hget2, hu, he⟩
        · rw [he]; exact ⟨n, hget, hown⟩
        · rw [he]; exact ⟨n, hget, hown⟩
        · rw [he]
          have hid : id ≠ id2 := by
            intro e
            subst e
            rw [hget] at hget2
            cases hget2
            exact hop (by rw [← hu, hown])
          exact ⟨n, by simp only [mapGet_mapDelete, hid, if_false]; exact hget, hown⟩
    obtain ⟨m, hm, hmo⟩ := key
    exact ih (s.step bits op) (N + creates [op]) o id m hI2 (by omega) hm hmo hrest

end notes

/-! ## Sequences of calls on the note store -/

/-- Assigning a key that the map does not hold and deleting it again gives the map
back. -/
theorem mapDelete_mapSet_absent {K V : Type} [DecidableEq K] (m : List (K × V)) (k : K)
    (v : V)
    (h : mapGet m k = none) : mapDelete (mapSet m k v) k = m := by
  induction m with
  | nil => simp [mapSet, mapDelete]
  | cons e rest ih =>
    obtain ⟨k1, v1⟩ := e
    by_cases hk : k1 = k
    · simp [mapGet, hk] at h
    · simp only [mapGet, hk, if_false] at h
      have ih2 := ih h
      unfold mapDelete at ih2 ⊢
      simp only [mapSet, hk, if_false]
      rw [List.filter_cons_of_pos (by simpa using hk), ih2]

/-- A key that `mapGet` finds is in the list with its value. -/
theorem mem_of_mapGet {K V : Type} [DecidableEq K] (m : List (K × V)) (k : K) (v : V)
    (h : mapGet m k = some v) : (k, v) ∈ m := by
  induction m with
  | nil => simp [mapGet] at h
  | cons e rest ih =>
    obtain ⟨k1, v1⟩ := e
    by_cases hk : k1 = k
    · subst hk
      simp only [mapGet, if_true, Option.some.injEq] at h
      simp [h]
    · simp only [mapGet, hk, if_false] at h
      simp [ih h]

namespace notes

/-- A note stored under some identifier is in the list of its owner. -/
theorem mem_List_of_mapGet (s : Store) (o id : String) (m : Note)
    (hget : mapGet s.notes id = some m) (hown : m.UserID = o) : m ∈ (s.List o).elems := by
  rw [List_elems]
  simp only [List.mem_filter, List.mem_map, decide_eq_true_eq]
  exact ⟨⟨(id, m), mem_of_mapGet _ _ _ hget, rfl⟩, hown⟩

/-- The identifiers a sequence of calls gives out: each is one of the next ones in
turn, no two are equal, and each note that is not deleted is still stored. -/
theorem issuedIDs_spec (bits : Nat) (hw : bits = 32 ∨ bits = 64) (ops : List Op) :
    ∀ (s : Store) (N : Nat), s.Issued bits N →
    N + creates ops ≤ 2 ^ bits →
    (∀ p ∈ issuedIDs bits s ops, ∃ j : Nat, N < j ∧ j ≤ N + creates ops ∧ p.2 = nthID bits j)
    ∧ ((issuedIDs bits s ops).map Prod.snd).Nodup
    ∧ (∀ o id : String, (o, id) ∈ issuedIDs bits s ops → Op.delete o id ∉ ops →
        ∃ m : Note, mapGet (runOps bits s ops).notes id = some m ∧ m.UserID = o ∧ m.ID = id) := by
  induction ops with
  | nil =>
    intro s N _ _
    simp [issuedIDs]
  | cons op rest ih =>
    intro s N hI hb
    cases op with
    | create now u input =>
      have hI2 : (s.step bits (Op.create now u input)).Issued bits (N + 1) := step_Issued bits s N hI _
      have hcr : creates (Op.create now u input :: rest) = creates rest + 1 := rfl
      rw [hcr] at hb ⊢
      obtain ⟨ha, hnd, hkeep⟩ := ih (s.step bits (Op.create now u input)) (N + 1) hI2 (by omega)
      obtain ⟨hid, _⟩ := Create_ID_nth bits s N hI.1 now u input
      simp only [Store.step] at ha hnd hkeep hI2
      refine ⟨?_, ?_, ?_⟩
      · intro p hp
        simp only [issuedIDs, List.mem_cons] at hp
        rcases hp with hp | hp
        · exact ⟨N + 1, by omega, by omega, by rw [hp]; exact hid⟩
        · obtain ⟨j, hj1, hj2, hj3⟩ := ha p hp
          exact ⟨j, by omega, by omega, hj3⟩
      · simp only [issuedIDs, List.map_cons, List.nodup_cons]
        refine ⟨?_, hnd⟩
        intro hmem
        obtain ⟨p, hp, hpe⟩ := List.mem_map.mp hmem
        obtain ⟨j, hj1, hj2, hj3⟩ := ha p hp
        rw [hpe, hid] at hj3
        have := nthID_inj bits hw (N + 1) j (by omega) (by omega) (by omega) hj3
        omega
      · intro o id hmem hdel
        have hrest : Op.delete o id ∉ rest := fun h => hdel (List.mem_cons_of_mem _ h)
        simp only [issuedIDs, List.mem_cons, Prod.mk.injEq] at hmem
        rcases hmem with ⟨ho, hi⟩ | hmem
        · subst ho hi
          exact runOps_keeps bits hw rest _ (N + 1) _ _ _ hI2 (by omega)
            (Create_stored _ _ _ _ _) (Create_owner _ _ _ _ _) hrest
        · exact hkeep o id hmem hrest
    | update now u id2 input =>
      have hI2 : (s.step bits (Op.update now u id2 input)).Issued bits N := step_Issued bits s N hI _
      have hcr : creates (Op.update now u id2 input :: rest) = creates rest := rfl
      rw [hcr] at hb ⊢
      obtain ⟨ha, hnd, hkeep⟩ := ih _ N hI2 hb
      refine ⟨ha, hnd, ?_⟩
      intro o id hmem hdel
      exact hkeep o id hmem (fun h => hdel (List.mem_cons_of_mem _ h))
    | delete u id2 =>
      have hI2 : (s.step bits (Op.delete u id2)).Issued bits N := step_Issued bits s N hI _
      have hcr : creates (Op.delete u id2 :: rest) = creates rest := rfl
      rw [hcr] at hb ⊢
      obtain ⟨ha, hnd, hkeep⟩ := ih _ N hI2 hb
      refine ⟨ha, hnd, ?_⟩
      intro o id hmem hdel
      exact hkeep o id hmem (fun h => hdel (List.mem_cons_of_mem _ h))

/-- The loop of `List` never appends when no stored note is the caller's. -/
theorem List_nil_of_no_notes (s : Store) (o : String)
    (h : ∀ e ∈ s.notes, e.2.UserID ≠ o) : s.List o = none := by
  unfold Store.List
  generalize s.notes = l at h
  induction l with
  | nil => rfl
  | cons e rest ih =>
    have he : e.2.UserID ≠ o := h e (List.mem_cons_self _ _)
    simp only [List.foldl_cons, he, if_false]
    exact ih (fun x hx => h x (List.mem_cons_of_mem _ hx))

/-- The calls of `churn` are `Create` and `Delete` calls of its user. -/
theorem churn_ops (bits : Nat) (now : Time) (u : String) (input : CreateInput) :
    ∀ (n start : Nat), ∀ op ∈ churn bits now u input start n,
      op = Op.create now u input ∨ ∃ id : String, op = Op.delete u id := by
  intro n
  induction n with
  | zero => intro start op h; simp [churn] at h
  | succ k ih =>
    intro start op h
    simp only [churn, List.mem_cons] at h
    rcases h with h | h | h
    · exact Or.inl h
    · exact Or.inr ⟨_, h⟩
    · exact ih _ op h

/-- Each round of `churn` leaves the notes of the store as they were, as long as the
identifiers it creates are free, and advances the counter by one. -/
theorem churn_run (bits : Nat) (now : Time) (u : String) (input : CreateInput) :
    ∀ (n start : Nat) (s : Store), s.counter = wrapInt bits start →
      (∀ j : Nat, start < j → j ≤ start + n → mapGet s.notes (nthID bits j) = none) →
      (runOps bits s (churn bits now u input start n)).notes = s.notes
      ∧ (runOps bits s (churn bits now u input start n)).counter
          = wrapInt bits ((start + n : Nat) : Int) := by
  intro n
  induction n with
  | zero =>
    intro start s hc _
    exact ⟨rfl, hc⟩
  | succ k ih =>
    intro start s hc hfree
    obtain ⟨hid, hcnt⟩ := Create_ID_nth bits s start hc now u input
    have hst := Create_stored bits s now u input
    have how := Create_owner bits s now u input
    have hnotes1 : (s.Create bits now u input).1.notes
        = mapSet s.notes (s.Create bits now u input).2.ID (s.Create bits now u input).2 := rfl
    rw [hid] at hst hnotes1
    have hdel : (s.Create bits now u input).1.Delete u (nthID bits (start + 1))
        = ({ (s.Create bits now u input).1 with
              notes := mapDelete (s.Create bits now u input).1.notes (nthID bits (start + 1)) },
            .ok ()) := by
      simp [Store.Delete, hst, how]
    have hfree1 : mapGet s.notes (nthID bits (start + 1)) = none :=
      hfree (start + 1) (by omega) (by omega)
    have hn2 : ((s.Create bits now u input).1.Delete u (nthID bits (start + 1))).1.notes
        = s.notes := by
      rw [hdel]
      simp only [hnotes1]
      exact mapDelete_mapSet_absent _ _ _ hfree1
    have hc2 : ((s.Create bits now u input).1.Delete u (nthID bits (start + 1))).1.counter
        = wrapInt bits ((start + 1 : Nat) : Int) := by
      rw [hdel]
      exact hcnt
    have h := ih (start + 1) _ hc2 (fun j h1 h2 => by
      rw [hn2]
      exact hfree j (by omega) (by omega))
    have e : start + (k + 1) = start + 1 + k := by omega
    rw [e]
    simp only [churn, runOps, Store.step]
    exact ⟨h.1.trans hn2, h.2⟩

/-- On a store whose counter stands at 0 and that holds no note or the note
`note_1`, `Create` returns `note_1` and leaves that one note in the store. -/
theorem Create_at_zero (t : Store) (hcnt : t.counter = 0) (old : Option Note)
    (hnotes : t.notes = (old.map (fun n => ("note_1", n))).toList) (now : Time) (u : String) :
    t.Create 32 now u milk
      = ({ notes := [("note_1", milkNote now u)], counter := 1 }, milkNote now u) := by
  obtain ⟨notes, counter⟩ := t
  simp only at hcnt hnotes
  subst hcnt hnotes
  have h1 : "note_" ++ toString (wrapInt 32 (0 + 1)) = "note_1" := by decide
  have h2 : wrapInt 32 (0 + 1) = 1 := by decide
  cases old with
  | none =>
    simp only [Store.Create, Store.newID, h1, h2]
    rfl
  | some n =>
    simp only [Store.Create, Store.newID, h1, h2]
    rfl

/-- The store after `ops` and one more call of `Create`. -/
theorem runOps_then_create (bits : Nat) (s t : Store) (ops : List Op) (now : Time)
    (u : String) (input : CreateInput) (h : runOps bits s ops = t) :
    runOps bits s (ops ++ [Op.create now u input]) = (t.Create bits now u input).1 := by
  rw [runOps_append, h]
  rfl

/-- A store is its notes and its counter. -/
theorem Store_eq (t : Store) (m : List (String × Note)) (c : Int) (h1 : t.notes = m)
    (h2 : t.counter = c) : t = { notes := m, counter := c } := by
  obtain ⟨notes, counter⟩ := t
  simp only at h1 h2
  rw [h1, h2]

/-- C12, as amended: in any sequence of calls on a new store with no more than
`2 ^ bits` `Create` calls, where `bits` is the width of `int` on the platform (32
or 64), the identifiers that the `Create` calls return are pairwise distinct,
and every note that a `Create(o, _)` of the sequence returned is in `List(o)`
after the sequence, under its identifier and with `o` as owner, unless a
`Delete(o, id)` with its identifier follows the `Create` in the sequence. Such
a `Delete` is the only call that removes the note; a `Delete` made before the
`Create`, or made by another owner, does not count. -/
theorem created_ids_distinct_and_listed (bits : Nat) (hw : bits = 32 ∨ bits = 64)
    (ops : List Op) (hb : creates ops ≤ 2 ^ bits) :
    ((issuedIDs bits NewStore ops).map Prod.snd).Nodup
    ∧ ∀ (pre post : List Op) (now : Time) (o : String) (input : CreateInput),
        ops = pre ++ Op.create now o input :: post →
        Op.delete o ((runOps bits NewStore pre).Create bits now o input).2.ID ∉ post →
        ∃ m ∈ ((runOps bits NewStore ops).List o).elems,
          m.ID = ((runOps bits NewStore pre).Create bits now o input).2.ID ∧ m.UserID = o := by
  obtain ⟨_, hnd, _⟩ := issuedIDs_spec bits hw ops NewStore 0 (Issued_NewStore bits hw) (by omega)
  refine ⟨hnd, ?_⟩
  intro pre post now o input hops hdel
  subst hops
  have hc : creates (pre ++ Op.create now o input :: post)
      = creates pre + creates [Op.create now o input] + creates post := by
    rw [creates_append, creates_cons, Nat.add_assoc]
  rw [hc] at hb
  have hI := runOps_Issued bits pre NewStore 0 (Issued_NewStore bits hw)
  rw [Nat.zero_add] at hI
  have hI2 := step_Issued bits _ _ hI (Op.create now o input)
  obtain ⟨m, hm, hmo, hmi⟩ := runOps_keeps bits hw post _ _ o _ _ hI2 hb
    (Create_stored bits (runOps bits NewStore pre) now o input)
    (Create_owner bits (runOps bits NewStore pre) now o input) hdel
  have hr : runOps bits NewStore (pre ++ Op.create now o input :: post)
      = runOps bits ((runOps bits NewStore pre).step bits (Op.create now o input)) post := by
    rw [runOps_append]
    rfl
  rw [hr]
  exact ⟨m, mem_List_of_mapGet _ o _ m hm hmo, hmi, hmo⟩

/-- The sample sequence on a 32-bit platform: the three identifiers given out
differ, and both notes of `u1` are in the list of `u1` at the end, although the
sequence begins with a `Delete` of `note_1` by `u1`. -/
theorem created_ids_distinct_and_listed_witness :
    ((issuedIDs 32 NewStore sampleOps).map Prod.snd).Nodup
    ∧ ∀ (pre post : List Op) (now : Time) (o : String) (input : CreateInput),
        sampleOps = pre ++ Op.create now o input :: post →
        Op.delete o ((runOps 32 NewStore pre).Create 32 now o input).2.ID ∉ post →
        ∃ m ∈ ((runOps 32 NewStore sampleOps).List o).elems,
          m.ID = ((runOps 32 NewStore pre).Create 32 now o input).2.ID ∧ m.UserID = o :=
  created_ids_distinct_and_listed 32 (Or.inl rfl) sampleOps (by decide)

/-- The identifiers number 2 to 2^32 are not `note_1`. -/
theorem later_ids_not_first (n : Note) (j : Nat) (h1 : 1 < j) (h2 : j ≤ 1 + (2 ^ 32 - 1)) :
    mapGet [("note_1", n)] (nthID 32 j) = none := by
  have hne : "note_1" ≠ nthID 32 j := by
    intro e
    have e1 : nthID 32 1 = nthID 32 j := e
    have := nthID_inj 32 (Or.inl rfl) 1 j (by omega) (by omega) (by omega) e1
    omega
  simp [mapGet, hne]

/-- C12 fails as stated on a platform whose `int` has 32 bits. `u1` creates a note,
`note_1`; `u2` creates a note and deletes it, 2^32 - 1 times over, which leaves
the note of `u1` alone and brings the counter to 0; the second `Create` of `u1`
then returns the identifier `note_1` again and its note takes the place of the
first: of the two notes `u1` created, and of which no call deleted any,
`List(u1)` holds one. -/
theorem identifier_repeats_after_wrap :
    NewStore.Create 32 1 "u1" milk
        = ({ notes := [("note_1", milkNote 1 "u1")], counter := 1 }, milkNote 1 "u1")
    ∧ (∀ op ∈ churn 32 2 "u2" milk 1 (2 ^ 32 - 1), ∀ id : String, op ≠ Op.delete "u1" id)
    ∧ runOps 32 { notes := [("note_1", milkNote 1 "u1")], counter := 1 }
          (churn 32 2 "u2" milk 1 (2 ^ 32 - 1))
        = { notes := [("note_1", milkNote 1 "u1")], counter := 0 }
    ∧ Store.Create { notes := [("note_1", milkNote 1 "u1")], counter := 0 } 32 3 "u1" milk
        = ({ notes := [("note_1", milkNote 3 "u1")], counter := 1 }, milkNote 3 "u1")
    ∧ (runOps 32 { notes := [("note_1", milkNote 1 "u1")], counter := 1 }
          (churn 32 2 "u2" milk 1 (2 ^ 32 - 1) ++ [Op.create 3 "u1" milk])).List "u1"
        = some [milkNote 3 "u1"] := by
  have hrun := churn_run 32 2 "u2" milk (2 ^ 32 - 1) 1
    { notes := [("note_1", milkNote 1 "u1")], counter := 1 }
    (by decide) (fun j h1 h2 => later_ids_not_first _ j h1 h2)
  have hst := Store_eq _ [("note_1", milkNote 1 "u1")] 0 hrun.1 (hrun.2.trans (by decide))
  have hcr := Create_at_zero { notes := [("note_1", milkNote 1 "u1")], counter := 0 } rfl
    (some (milkNote 1 "u1")) rfl 3 "u1"
  refine ⟨by decide, ?_, hst, hcr, ?_⟩
  · intro op hop id e
    rcases churn_ops 32 2 "u2" milk _ _ op hop with h | ⟨id2, h⟩
    · rw [h] at e
      cases e
    · rw [h] at e
      simp at e
  · exact (congrArg (fun t : Store => t.List "u1")
      ((runOps_then_create 32 _ _ _ 3 "u1" milk hst).trans (congrArg Prod.fst hcr))).trans
      (by decide)

/-- C13, as amended: for every store and every owner `o` that owns no note in it,
`List(o)` returns a slice without elements, and that slice is the `nil` slice; it
is the handler of `GET /notes` that puts an empty non-nil slice in its place. -/
theorem list_of_nothing_is_nil (s : Store) (o : String)
    (h : ∀ e ∈ s.notes, e.2.UserID ≠ o) :
    (s.List o).elems = [] ∧ s.List o = none ∧ server.handleNotesGet s o = some [] := by
  have hnil := List_nil_of_no_notes s o h
  simp [server.handleNotesGet, hnil, Slice.elems]

/-- The test `TestCreateAndList`: after `user1` created a note, the list of `user2`
has no elements and is `nil`. -/
theorem list_of_nothing_is_nil_witness :
    ((NewStore.Create 64 1 "user1" milk).1.List "user2").elems = []
    ∧ (NewStore.Create 64 1 "user1" milk).1.List "user2" = none
    ∧ server.handleNotesGet (NewStore.Create 64 1 "user1" milk).1 "user2" = some [] :=
  list_of_nothing_is_nil (NewStore.Create 64 1 "user1" milk).1 "user2" (by decide)

/-- C13 fails as stated: on the new store, and on the store of `TestCreateAndList`,
`List` returns the `nil` slice for an owner without notes. -/
theorem list_returns_nil :
    NewStore.List "user2" = none
    ∧ (NewStore.Create 64 1 "user1" milk).1.List "user2" = none := by
  decide

/-- C14, as amended: `Create` does not look at the title. For an input whose Title
is the empty string it returns a note with the empty title, stores it (the
owner's `Get` finds it) and advances the counter; rejecting the empty title is
the work of the handler of `POST /notes`, which answers 400 and leaves the
store alone. -/
theorem create_accepts_empty_title (bits : Nat) (s : Store) (now : Time) (o : String)
    (input : CreateInput) (h : input.Title = "") :
    (s.Create bits now o input).2.Title = ""
    ∧ (s.Create bits now o input).1.Get o (s.Create bits now o input).2.ID
        = .ok (s.Create bits now o input).2
    ∧ (s.Create bits now o input).1.counter = wrapInt bits (s.counter + 1)
    ∧ server.handleNotesPost s bits now o input
        = (s, .error (server.StatusBadRequest, "title is required")) := by
  refine ⟨?_, ?_, Create_counter bits s now o input, ?_⟩
  · simp [Store.Create, h]
  · simp [Store.Get, Create_stored, Create_owner]
  · simp [server.handleNotesPost, h]

/-- An input without a title on a new store: the note is created as `note_1`, and the
handler refuses the same input. -/
theorem create_accepts_empty_title_witness :
    (NewStore.Create 64 1 "u1" untitled).2.Title = ""
    ∧ (NewStore.Create 64 1 "u1" untitled).1.Get "u1" (NewStore.Create 64 1 "u1" untitled).2.ID
        = .ok (NewStore.Create 64 1 "u1" untitled).2
    ∧ (NewStore.Create 64 1 "u1" untitled).1.counter = wrapInt 64 (NewStore.counter + 1)
    ∧ server.handleNotesPost NewStore 64 1 "u1" untitled
        = (NewStore, .error (server.StatusBadRequest, "title is required")) :=
  create_accepts_empty_title 64 NewStore 1 "u1" untitled (by decide)

/-- C14 fails as stated: `Create` with the empty title on a new store inserts the note
`note_1` with the empty title, returns it, and the counter stands at 1. -/
theorem empty_title_note_created :
    NewStore.Create 64 1 "u1" untitled
      = ({ notes := [("note_1",
              { ID := "note_1", UserID := "u1", Title := "", Body := "text", Done := false,
                Priority := "medium", Tags := some [], CreatedAt := 1, UpdatedAt := 1 })],
           counter := 1 },
         { ID := "note_1", UserID := "u1", Title := "", Body := "text", Done := false,
           Priority := "medium", Tags := some [], CreatedAt := 1, UpdatedAt := 1 }) := by
  decide

end notes
